import Mathlib

/-!
Verification of the srtlib subtitle library (src/lib.rs).

The Rust code is shallowly embedded: `u8`/`u16`/`usize` fields become `Nat`
with explicit width bounds and `% 2^w` at every narrowing cast, `i32` deltas
become `Int` (the source never exercises `i32` wrap-around on its own
arithmetic for the in-range inputs the claims quantify over), panics and
parse failures become `Option`/`Except`-style results, and Rust string
operations (`splitn`, `split`, `split_terminator`, `trim_start_matches`,
integer `FromStr`, zero-padded `Display`) are reimplemented on `List Char`.
-/

/-- The error enum `ParsingError` from the source (file/IO variants carry no
payload we need; `BadSubtitleStructure` carries the ordinal). -/
inductive ParsingError where
  | parseIntError
  | ioError
  | malformedTimestamp
  | badSubtitleStructure (num : Nat)
  | badEncodingName
deriving DecidableEq, Repr

/-- Result type mirroring Rust's `Result<α, ParsingError>`. -/
inductive PResult (α : Type) where
  | ok (val : α)
  | error (e : ParsingError)
deriving DecidableEq, Repr

/-- Value of a decimal digit character, as Rust's `char::to_digit(10)` used by
integer `FromStr`: `'0'..='9'` only. -/
def digitVal (c : Char) : Option Nat :=
  if 48 ≤ c.toNat ∧ c.toNat ≤ 57 then some (c.toNat - 48) else none

/-- Rust's unsigned-integer `FromStr` accepts one optional leading `'+'`. -/
def stripPlus : List Char → List Char
  | [] => []
  | c :: rest => if c = '+' then rest else c :: rest

/-- Digit values of all characters, failing on the first non-digit, as the
digit loop inside Rust's integer `FromStr`. -/
def digitValsOf : List Char → Option (List Nat)
  | [] => some []
  | c :: rest =>
    match digitVal c, digitValsOf rest with
    | some d, some ds => some (d :: ds)
    | _, _ => none

/-- Big-endian decimal value of a digit list. -/
def digitsVal (ds : List Nat) : Nat :=
  ds.foldl (fun a d => 10 * a + d) 0

/-- Rust `str::parse::<uN>() ` for an unsigned type with maximum value
`maxVal`: optional `'+'`, then one or more decimal digits, failing on any
other character, on an empty digit run, and on overflow of the native width. -/
def parseUInt (maxVal : Nat) (l : List Char) : Option Nat :=
  match digitValsOf (stripPlus l) with
  | none => none
  | some ds =>
    if ds.isEmpty then none
    else if digitsVal ds ≤ maxVal then some (digitsVal ds) else none

/-- The decimal digit character for `d` (callers pass `d < 10`). -/
def digitChar (d : Nat) : Char :=
  match d with
  | 0 => '0' | 1 => '1' | 2 => '2' | 3 => '3' | 4 => '4'
  | 5 => '5' | 6 => '6' | 7 => '7' | 8 => '8' | _ => '9'

/-- Fuel-driven big-endian decimal rendering (fuel `> n` suffices). -/
def natDecAux : Nat → Nat → List Char
  | 0, _ => []
  | fuel + 1, n =>
    if n < 10 then [digitChar n]
    else natDecAux fuel (n / 10) ++ [digitChar (n % 10)]

/-- Decimal rendering of a natural number, as Rust `Display` for integers. -/
def natDec (n : Nat) : List Char := natDecAux (n + 1) n

/-- Zero padding to minimum width `w`, as Rust's `{:0w}` format. -/
def padZeros (w : Nat) (l : List Char) : List Char :=
  List.replicate (w - l.length) '0' ++ l

/-- Split a char list at the first occurrence of `sep`, as one step of Rust's
`split(char)` iterators. -/
def splitOnceChar (sep : Char) : List Char → Option (List Char × List Char)
  | [] => none
  | c :: rest =>
    if c = sep then some ([], rest)
    else match splitOnceChar sep rest with
      | none => none
      | some (a, b) => some (c :: a, b)

/-- Rust `str::splitn(n, sep)` collected to a list: at most `n` pieces, the
last piece holding the unsplit remainder. -/
def splitnChar : Nat → Char → List Char → List (List Char)
  | 0, _, _ => []
  | 1, _, l => [l]
  | n + 2, sep, l =>
    match splitOnceChar sep l with
    | none => [l]
    | some (a, b) => a :: splitnChar (n + 1) sep b

/-- A simple timestamp `hours:minutes:seconds,milliseconds`; in the source the
fields are `u8,u8,u8,u16`, embedded as `Nat` with width handled at casts. -/
structure Timestamp where
  hours : Nat
  minutes : Nat
  seconds : Nat
  milliseconds : Nat
deriving DecidableEq, Repr

/-- `Timestamp::new`: raw field assignment. -/
def Timestamp.new (hours minutes seconds milliseconds : Nat) : Timestamp :=
  ⟨hours, minutes, seconds, milliseconds⟩

/-- `Timestamp::parse`: `splitn(3, ':')`, then the third field split on the
first `','`; fields parsed as `u8,u8,u8,u16`, with iterator exhaustion
reported as `MalformedTimestamp` and digit failures as `ParseIntError`. -/
def Timestamp.parse (s : List Char) : PResult Timestamp :=
  match splitnChar 3 ':' s with
  | [] => .error .malformedTimestamp
  | hoursF :: rest =>
    match parseUInt 255 hoursF with
    | none => .error .parseIntError
    | some hours =>
      match rest with
      | [] => .error .malformedTimestamp
      | minutesF :: rest2 =>
        match parseUInt 255 minutesF with
        | none => .error .parseIntError
        | some minutes =>
          match rest2 with
          | [] => .error .malformedTimestamp
          | thirdF :: _ =>
            match splitnChar 2 ',' thirdF with
            | [] => .error .malformedTimestamp
            | secondsF :: srest =>
              match parseUInt 255 secondsF with
              | none => .error .parseIntError
              | some seconds =>
                match srest with
                | [] => .error .malformedTimestamp
                | msF :: _ =>
                  match parseUInt 65535 msF with
                  | none => .error .parseIntError
                  | some ms => .ok (Timestamp.new hours minutes seconds ms)

/-- `Display for Timestamp`: `"{:02}:{:02}:{:02},{:03}"`. -/
def Timestamp.render (t : Timestamp) : List Char :=
  padZeros 2 (natDec t.hours) ++ ':' ::
  (padZeros 2 (natDec t.minutes) ++ ':' ::
  (padZeros 2 (natDec t.seconds) ++ ',' :: padZeros 3 (natDec t.milliseconds)))

/-- `Timestamp::add_hours`: panic (here `none`) iff the result leaves
`0..=255`; otherwise the `as u8` cast of `hours + n`. -/
def Timestamp.add_hours (t : Timestamp) (n : Int) : Option Timestamp :=
  if n > ((255 - t.hours : Nat) : Int) ∨ -n > (t.hours : Int) then none
  else some { t with hours := (((t.hours : Int) + n) % 256).toNat }

/-- `Timestamp::add_minutes`: carry `(m+n)/60` (Rust truncating division,
minus one when the truncating remainder is negative) into the hours, then the
non-negative representative of the remainder, cast `as u8`. -/
def Timestamp.add_minutes (t : Timestamp) (n : Int) : Option Timestamp :=
  match t.add_hours (((t.minutes : Int) + n).tdiv 60 -
      (if ((t.minutes : Int) + n).tmod 60 < 0 then 1 else 0)) with
  | none => none
  | some t2 =>
    some { t2 with minutes := ((60 + ((t.minutes : Int) + n).tmod 60).tmod 60).natAbs % 256 }

/-- `Timestamp::add_seconds`: same shape, carrying into the minutes. -/
def Timestamp.add_seconds (t : Timestamp) (n : Int) : Option Timestamp :=
  match t.add_minutes (((t.seconds : Int) + n).tdiv 60 -
      (if ((t.seconds : Int) + n).tmod 60 < 0 then 1 else 0)) with
  | none => none
  | some t2 =>
    some { t2 with seconds := ((60 + ((t.seconds : Int) + n).tmod 60).tmod 60).natAbs % 256 }

/-- `Timestamp::add_milliseconds`: modulus 1000, carrying into the seconds,
local field cast `as u16`. -/
def Timestamp.add_milliseconds (t : Timestamp) (n : Int) : Option Timestamp :=
  match t.add_seconds (((t.milliseconds : Int) + n).tdiv 1000 -
      (if ((t.milliseconds : Int) + n).tmod 1000 < 0 then 1 else 0)) with
  | none => none
  | some t2 =>
    some { t2 with milliseconds := ((1000 + ((t.milliseconds : Int) + n).tmod 1000).tmod 1000).natAbs % 65536 }

/-- `Timestamp::add`: the four single-field additions, most significant
first, each delta non-negative. -/
def Timestamp.add (t other : Timestamp) : Option Timestamp :=
  match t.add_hours (other.hours : Int) with
  | none => none
  | some t1 =>
    match t1.add_minutes (other.minutes : Int) with
    | none => none
    | some t2 =>
      match t2.add_seconds (other.seconds : Int) with
      | none => none
      | some t3 => t3.add_milliseconds (other.milliseconds : Int)

/-- `Timestamp::sub`: the four single-field additions of the negated deltas,
least significant first. -/
def Timestamp.sub (t other : Timestamp) : Option Timestamp :=
  match t.add_milliseconds (-(other.milliseconds : Int)) with
  | none => none
  | some t1 =>
    match t1.add_seconds (-(other.seconds : Int)) with
    | none => none
    | some t2 =>
      match t2.add_minutes (-(other.minutes : Int)) with
      | none => none
      | some t3 => t3.add_hours (-(other.hours : Int))

/-- The spec's normalization invariant: minutes and seconds in `[0,59]`,
milliseconds in `[0,999]` (hours is free to use its full `u8` range). -/
def Timestamp.Norm (t : Timestamp) : Prop :=
  t.minutes ≤ 59 ∧ t.seconds ≤ 59 ∧ t.milliseconds ≤ 999

/-- Fully in-range timestamp: normalized with `hours` within its `u8` width. -/
def Timestamp.WF (t : Timestamp) : Prop :=
  t.hours ≤ 255 ∧ t.Norm

instance (t : Timestamp) : Decidable t.Norm := by unfold Timestamp.Norm; infer_instance

instance (t : Timestamp) : Decidable t.WF := by unfold Timestamp.WF; infer_instance

/-- Total value of a timestamp in milliseconds. -/
def Timestamp.val (t : Timestamp) : Int :=
  (((t.hours * 60 + t.minutes) * 60 + t.seconds) * 1000 + t.milliseconds : Nat)

/-- One of the four time fields. -/
inductive TField where
  | hours | minutes | seconds | milliseconds
deriving DecidableEq, Repr

/-- The single-field addition selected by `f`. -/
def Timestamp.applyField (t : Timestamp) (f : TField) (n : Int) : Option Timestamp :=
  match f with
  | .hours => t.add_hours n
  | .minutes => t.add_minutes n
  | .seconds => t.add_seconds n
  | .milliseconds => t.add_milliseconds n

/-- Apply a sequence of single-field additions, stopping at the first panic. -/
def Timestamp.applySeq (t : Timestamp) : List (TField × Int) → Option Timestamp
  | [] => some t
  | (f, n) :: rest =>
    match t.applyField f n with
    | none => none
    | some t2 => t2.applySeq rest

/-- Milliseconds per unit of each field. -/
def TField.unitMs : TField → Int
  | .hours => 3600000
  | .minutes => 60000
  | .seconds => 1000
  | .milliseconds => 1

/-- C1: the spec's worked carry chain from `Timestamp::new(0,0,0,0)`:
`+1200 ms ⇒ (0,0,1,200)`, `+65 s ⇒ (0,1,6,200)`, `+122 min ⇒ (2,3,6,200)`,
`−1 h ⇒ (1,3,6,200)`, `−7 s ⇒ (1,2,59,200)`, with no call failing. -/
theorem carry_chain_correct :
    (Timestamp.new 0 0 0 0).add_milliseconds 1200 = some (Timestamp.new 0 0 1 200) ∧
    (Timestamp.new 0 0 1 200).add_seconds 65 = some (Timestamp.new 0 1 6 200) ∧
    (Timestamp.new 0 1 6 200).add_minutes 122 = some (Timestamp.new 2 3 6 200) ∧
    (Timestamp.new 2 3 6 200).add_hours (-1) = some (Timestamp.new 1 3 6 200) ∧
    (Timestamp.new 1 3 6 200).add_seconds (-7) = some (Timestamp.new 1 2 59 200) := by
  decide

/-- C10: `Timestamp::parse` accepts fields with a leading `'+'` because each
field goes through the standard unsigned-integer parser:
`"+01:+02:+03,+004"` parses to the timestamp `(1,2,3,4)`. -/
theorem parse_plus_sign :
    Timestamp.parse "+01:+02:+03,+004".toList = .ok (Timestamp.new 1 2 3 4) := by
  decide

/-! ### Arithmetic facts about the carry construction -/

theorem tmod_neg_arg (y b : Int) : (-y).tmod b = -(y.tmod b) := by
  rw [Int.tmod_def, Int.tmod_def, Int.neg_tdiv]; ring

theorem tmod_tdiv_facts (x : Int) {b : Int} (hb : 0 < b) :
    b * x.tdiv b + x.tmod b = x ∧ x.tmod b < b ∧ -b < x.tmod b ∧
    (0 ≤ x → 0 ≤ x.tmod b) ∧ (x ≤ 0 → x.tmod b ≤ 0) := by
  refine ⟨Int.tdiv_add_tmod x b, Int.tmod_lt_of_pos x hb, ?_, fun h => Int.tmod_nonneg b h, ?_⟩
  · rcases le_or_lt 0 x with h | h
    · have := Int.tmod_nonneg b h; omega
    · have h2 : (-x).tmod b < b := Int.tmod_lt_of_pos _ hb
      rw [tmod_neg_arg] at h2; omega
  · intro h
    have h2 : 0 ≤ (-x).tmod b := Int.tmod_nonneg b (by omega)
    rw [tmod_neg_arg] at h2; omega

/-- The carry/remainder pair computed by each `add_*` method: the carry is the
floor quotient and the stored field is the non-negative remainder. -/
theorem carry_local_spec (x : Int) {b : Int} (hb : 0 < b) :
    (((b + x.tmod b).tmod b).natAbs : Int) < b ∧
    b * (x.tdiv b - (if x.tmod b < 0 then 1 else 0)) + (((b + x.tmod b).tmod b).natAbs : Int) = x := by
  obtain ⟨heq, hlt, hgt, hpos, hneg⟩ := tmod_tdiv_facts x hb
  have hdist : b * (x.tdiv b - 1) = b * x.tdiv b - b := by ring
  have hdist0 : b * (x.tdiv b - 0) = b * x.tdiv b := by ring
  rcases lt_or_le (x.tmod b) 0 with hc | hc
  · have hv : (b + x.tmod b).tmod b = b + x.tmod b :=
      Int.tmod_eq_of_lt (by omega) (by omega)
    rw [hv, if_pos hc]
    rw [Int.natAbs_of_nonneg (a := b + x.tmod b) (by omega)]
    exact ⟨by omega, by omega⟩
  · have hv : (b + x.tmod b).tmod b = x.tmod b := by
      rw [Int.tmod_eq_emod (by omega) (by omega)]
      have hre : b + x.tmod b = x.tmod b + b * 1 := by ring
      rw [hre, Int.add_mul_emod_self_left, Int.emod_eq_of_lt hc hlt]
    rw [hv, if_neg (not_lt.mpr hc)]
    rw [Int.natAbs_of_nonneg hc]
    exact ⟨by omega, by omega⟩

/-! ### Specifications of the single-field additions -/

theorem add_hours_none_iff (t : Timestamp) (n : Int) (ht : t.hours ≤ 255) :
    t.add_hours n = none ↔ ((t.hours : Int) + n > 255 ∨ (t.hours : Int) + n < 0) := by
  unfold Timestamp.add_hours
  split
  next h => simp only [true_iff]; omega
  next h => simp only [reduceCtorEq, false_iff]; omega

theorem add_hours_some (t t2 : Timestamp) (n : Int) (ht : t.hours ≤ 255)
    (h : t.add_hours n = some t2) :
    (t2.hours : Int) = (t.hours : Int) + n ∧ t2.minutes = t.minutes ∧
    t2.seconds = t.seconds ∧ t2.milliseconds = t.milliseconds := by
  unfold Timestamp.add_hours at h
  split at h
  next => exact absurd h (by simp)
  next hg =>
    obtain rfl : { t with hours := (((t.hours : Int) + n) % 256).toNat } = t2 :=
      Option.some.inj h
    refine ⟨?_, rfl, rfl, rfl⟩
    simp only
    omega

/-- Unconditional structure of a successful `add_hours`: the three lower
fields are untouched. -/
theorem add_hours_shape {t t2 : Timestamp} {n : Int} (h : t.add_hours n = some t2) :
    t2.minutes = t.minutes ∧ t2.seconds = t.seconds ∧ t2.milliseconds = t.milliseconds := by
  unfold Timestamp.add_hours at h
  split at h
  next => exact absurd h (by simp)
  next =>
    obtain rfl : { t with hours := (((t.hours : Int) + n) % 256).toNat } = t2 :=
      Option.some.inj h
    exact ⟨rfl, rfl, rfl⟩

/-- Unconditional structure of a successful `add_minutes`: the new minutes
value is in `[0,59]` and the two lower fields are untouched. -/
theorem add_minutes_shape {t t2 : Timestamp} {n : Int} (h : t.add_minutes n = some t2) :
    t2.minutes ≤ 59 ∧ t2.seconds = t.seconds ∧ t2.milliseconds = t.milliseconds := by
  unfold Timestamp.add_minutes at h
  split at h
  next => exact absurd h (by simp)
  next t1 heq =>
    obtain rfl : { t1 with minutes := ((60 + ((t.minutes : Int) + n).tmod 60).tmod 60).natAbs % 256 } = t2 :=
      Option.some.inj h
    obtain ⟨-, h2, h3⟩ := add_hours_shape heq
    have hb := (carry_local_spec ((t.minutes : Int) + n) (b := 60) (by norm_num)).1
    refine ⟨?_, h2, h3⟩
    simp only
    omega

theorem add_seconds_shape {t t2 : Timestamp} {n : Int} (h : t.add_seconds n = some t2) :
    t2.seconds ≤ 59 ∧ t2.minutes ≤ 59 ∧ t2.milliseconds = t.milliseconds := by
  unfold Timestamp.add_seconds at h
  split at h
  next => exact absurd h (by simp)
  next t1 heq =>
    obtain rfl : { t1 with seconds := ((60 + ((t.seconds : Int) + n).tmod 60).tmod 60).natAbs % 256 } = t2 :=
      Option.some.inj h
    obtain ⟨h1, -, h3⟩ := add_minutes_shape heq
    have hb := (carry_local_spec ((t.seconds : Int) + n) (b := 60) (by norm_num)).1
    refine ⟨?_, h1, h3⟩
    simp only
    omega

theorem add_milliseconds_shape {t t2 : Timestamp} {n : Int}
    (h : t.add_milliseconds n = some t2) :
    t2.milliseconds ≤ 999 ∧ t2.seconds ≤ 59 ∧ t2.minutes ≤ 59 := by
  unfold Timestamp.add_milliseconds at h
  split at h
  next => exact absurd h (by simp)
  next t1 heq =>
    obtain rfl : { t1 with milliseconds := ((1000 + ((t.milliseconds : Int) + n).tmod 1000).tmod 1000).natAbs % 65536 } = t2 :=
      Option.some.inj h
    obtain ⟨h1, h2, -⟩ := add_seconds_shape heq
    have hb := (carry_local_spec ((t.milliseconds : Int) + n) (b := 1000) (by norm_num)).1
    refine ⟨?_, h1, h2⟩
    simp only
    omega

/-! ### Value-tracking specifications (well-formed inputs) -/

theorem add_hours_wf {t t2 : Timestamp} {n : Int} (hw : t.WF) (h : t.add_hours n = some t2) :
    t2.WF ∧ t2.val = t.val + n * 3600000 := by
  obtain ⟨ht, hm, hs, hms⟩ := hw
  unfold Timestamp.add_hours at h
  split at h
  next => exact absurd h (by simp)
  next hg =>
    obtain rfl : { t with hours := (((t.hours : Int) + n) % 256).toNat } = t2 :=
      Option.some.inj h
    have hb : (((t.hours : Int) + n) % 256).toNat = t.hours + n := by omega
    refine ⟨⟨?_, ?_, ?_, ?_⟩, ?_⟩ <;>
      simp only [Timestamp.val, Timestamp.Norm, hb] <;> omega

theorem add_minutes_wf {t t2 : Timestamp} {n : Int} (hw : t.WF)
    (h : t.add_minutes n = some t2) : t2.WF ∧ t2.val = t.val + n * 60000 := by
  unfold Timestamp.add_minutes at h
  split at h
  next => exact absurd h (by simp)
  next t1 heq =>
    obtain rfl := Option.some.inj h
    obtain ⟨⟨hh1, hn1⟩, hv1⟩ := add_hours_wf hw heq
    obtain ⟨hf1, hf2, hf3⟩ := add_hours_shape heq
    obtain ⟨hMlt, hMeq⟩ := carry_local_spec ((t.minutes : Int) + n) (b := 60) (by norm_num)
    obtain ⟨hm, hs, hms⟩ := hw.2
    refine ⟨⟨?_, ?_, ?_, ?_⟩, ?_⟩ <;>
      simp only [Timestamp.val, Timestamp.Norm, Timestamp.WF] at hv1 ⊢ <;> omega

theorem add_seconds_wf {t t2 : Timestamp} {n : Int} (hw : t.WF)
    (h : t.add_seconds n = some t2) : t2.WF ∧ t2.val = t.val + n * 1000 := by
  unfold Timestamp.add_seconds at h
  split at h
  next => exact absurd h (by simp)
  next t1 heq =>
    obtain rfl := Option.some.inj h
    obtain ⟨⟨hh1, hn1a, hn1b, hn1c⟩, hv1⟩ := add_minutes_wf hw heq
    obtain ⟨hf1, hf2, hf3⟩ := add_minutes_shape heq
    obtain ⟨hMlt, hMeq⟩ := carry_local_spec ((t.seconds : Int) + n) (b := 60) (by norm_num)
    obtain ⟨hm, hs, hms⟩ := hw.2
    refine ⟨⟨?_, ?_, ?_, ?_⟩, ?_⟩ <;>
      simp only [Timestamp.val, Timestamp.Norm, Timestamp.WF] at hv1 ⊢ <;> omega

theorem add_milliseconds_wf {t t2 : Timestamp} {n : Int} (hw : t.WF)
    (h : t.add_milliseconds n = some t2) : t2.WF ∧ t2.val = t.val + n * 1 := by
  unfold Timestamp.add_milliseconds at h
  split at h
  next => exact absurd h (by simp)
  next t1 heq =>
    obtain rfl := Option.some.inj h
    obtain ⟨⟨hh1, hn1a, hn1b, hn1c⟩, hv1⟩ := add_seconds_wf hw heq
    obtain ⟨hf1, hf2, hf3⟩ := add_seconds_shape heq
    obtain ⟨hMlt, hMeq⟩ := carry_local_spec ((t.milliseconds : Int) + n) (b := 1000) (by norm_num)
    obtain ⟨hm, hs, hms⟩ := hw.2
    refine ⟨⟨?_, ?_, ?_, ?_⟩, ?_⟩ <;>
      simp only [Timestamp.val, Timestamp.Norm, Timestamp.WF] at hv1 ⊢ <;> omega

theorem applyField_wf {t t2 : Timestamp} {f : TField} {n : Int} (hw : t.WF)
    (h : t.applyField f n = some t2) : t2.WF ∧ t2.val = t.val + n * f.unitMs := by
  cases f <;> simp only [Timestamp.applyField, TField.unitMs] at h ⊢
  · exact add_hours_wf hw h
  · exact add_minutes_wf hw h
  · exact add_seconds_wf hw h
  · exact add_milliseconds_wf hw h

/-- Total delta (in milliseconds) of a sequence of single-field additions. -/
def sumContrib (l : List (TField × Int)) : Int :=
  (l.map (fun p => p.2 * p.1.unitMs)).sum

theorem applySeq_wf : ∀ (l : List (TField × Int)) (t u : Timestamp), t.WF →
    t.applySeq l = some u → u.WF ∧ u.val = t.val + sumContrib l := by
  intro l
  induction l with
  | nil =>
    intro t u hw h
    obtain rfl : t = u := Option.some.inj h
    simp [sumContrib, hw]
  | cons p rest ih =>
    intro t u hw h
    obtain ⟨f, n⟩ := p
    unfold Timestamp.applySeq at h
    split at h
    next => exact absurd h (by simp)
    next t1 heq =>
      obtain ⟨hw1, hv1⟩ := applyField_wf hw heq
      obtain ⟨hwu, hvu⟩ := ih t1 u hw1 h
      refine ⟨hwu, ?_⟩
      simp only [sumContrib, List.map_cons, List.sum_cons] at hvu ⊢
      rw [hvu, hv1]
      ring

theorem val_inj {a b : Timestamp} (ha : a.WF) (hb : b.WF) (h : a.val = b.val) : a = b := by
  obtain ⟨ha1, ha2, ha3, ha4⟩ := ha
  obtain ⟨hb1, hb2, hb3, hb4⟩ := hb
  cases a; cases b
  simp only [Timestamp.val, Timestamp.Norm] at *
  simp only [Timestamp.mk.injEq]
  refine ⟨?_, ?_, ?_, ?_⟩ <;> omega

theorem add_wf {t d u : Timestamp} (hw : t.WF) (h : t.add d = some u) :
    u.WF ∧ u.val = t.val + d.val := by
  unfold Timestamp.add at h
  split at h
  next => exact absurd h (by simp)
  next t1 h1 =>
    split at h
    next => exact absurd h (by simp)
    next t2 h2 =>
      split at h
      next => exact absurd h (by simp)
      next t3 h3 =>
        obtain ⟨hw1, hv1⟩ := add_hours_wf hw h1
        obtain ⟨hw2, hv2⟩ := add_minutes_wf hw1 h2
        obtain ⟨hw3, hv3⟩ := add_seconds_wf hw2 h3
        obtain ⟨hw4, hv4⟩ := add_milliseconds_wf hw3 h
        refine ⟨hw4, ?_⟩
        simp only [Timestamp.val] at hv1 hv2 hv3 hv4 ⊢
        omega

theorem sub_wf {t d u : Timestamp} (hw : t.WF) (h : t.sub d = some u) :
    u.WF ∧ u.val = t.val - d.val := by
  unfold Timestamp.sub at h
  split at h
  next => exact absurd h (by simp)
  next t1 h1 =>
    split at h
    next => exact absurd h (by simp)
    next t2 h2 =>
      split at h
      next => exact absurd h (by simp)
      next t3 h3 =>
        obtain ⟨hw1, hv1⟩ := add_milliseconds_wf hw h1
        obtain ⟨hw2, hv2⟩ := add_seconds_wf hw1 h2
        obtain ⟨hw3, hv3⟩ := add_minutes_wf hw2 h3
        obtain ⟨hw4, hv4⟩ := add_hours_wf hw3 h
        refine ⟨hw4, ?_⟩
        simp only [Timestamp.val] at hv1 hv2 hv3 hv4 ⊢
        omega

/-- C2: for a `u8`-ranged `hours` field, `add_hours(n)` panics exactly when
`hours + n` leaves `0..=255`; on success the hours field becomes `hours + n`
and the other three fields are untouched. -/
theorem add_hours_panic_iff (t t2 : Timestamp) (n : Int) (ht : t.hours ≤ 255) :
    (t.add_hours n = none ↔ ((t.hours : Int) + n > 255 ∨ (t.hours : Int) + n < 0)) ∧
    (t.add_hours n = some t2 →
      (t2.hours : Int) = (t.hours : Int) + n ∧ t2.minutes = t.minutes ∧
      t2.seconds = t.seconds ∧ t2.milliseconds = t.milliseconds) := by
  exact ⟨add_hours_none_iff t n ht, fun h => add_hours_some t t2 n ht h⟩

theorem add_hours_panic_iff_witness :
    ((Timestamp.new 3 2 1 0).hours : Int) = ((Timestamp.new 1 2 1 0).hours : Int) + 2 ∧
    (Timestamp.new 3 2 1 0).minutes = (Timestamp.new 1 2 1 0).minutes ∧
    (Timestamp.new 3 2 1 0).seconds = (Timestamp.new 1 2 1 0).seconds ∧
    (Timestamp.new 3 2 1 0).milliseconds = (Timestamp.new 1 2 1 0).milliseconds :=
  (add_hours_panic_iff (Timestamp.new 1 2 1 0) (Timestamp.new 3 2 1 0) 2 (by decide)).2
    (by decide)

/-- C3: the normalization invariant (minutes, seconds in `[0,59]`,
milliseconds in `[0,999]`) is preserved by every add operation that returns
without panicking, for any signed delta and any delta timestamp. -/
theorem norm_invariant_preserved (t d : Timestamp) (n : Int)
    (r1 r2 r3 r4 r5 r6 : Timestamp) (hn : t.Norm) :
    (t.add_hours n = some r1 → r1.Norm) ∧
    (t.add_minutes n = some r2 → r2.Norm) ∧
    (t.add_seconds n = some r3 → r3.Norm) ∧
    (t.add_milliseconds n = some r4 → r4.Norm) ∧
    (t.add d = some r5 → r5.Norm) ∧
    (t.sub d = some r6 → r6.Norm) := by
  obtain ⟨hm, hs, hms⟩ := hn
  have hah : ∀ {a b : Timestamp} {k : Int}, a.add_hours k = some b → a.Norm → b.Norm := by
    intro a b k h hn
    obtain ⟨h1, h2, h3⟩ := add_hours_shape h
    exact ⟨h1 ▸ hn.1, h2 ▸ hn.2.1, h3 ▸ hn.2.2⟩
  have ham : ∀ {a b : Timestamp} {k : Int}, a.add_minutes k = some b → a.Norm → b.Norm := by
    intro a b k h hn
    obtain ⟨h1, h2, h3⟩ := add_minutes_shape h
    exact ⟨h1, h2 ▸ hn.2.1, h3 ▸ hn.2.2⟩
  have has : ∀ {a b : Timestamp} {k : Int}, a.add_seconds k = some b → a.Norm → b.Norm := by
    intro a b k h hn
    obtain ⟨h1, h2, h3⟩ := add_seconds_shape h
    exact ⟨h2, h1, h3 ▸ hn.2.2⟩
  have hams : ∀ {a b : Timestamp} {k : Int}, a.add_milliseconds k = some b → b.Norm := by
    intro a b k h
    obtain ⟨h1, h2, h3⟩ := add_milliseconds_shape h
    exact ⟨h3, h2, h1⟩
  refine ⟨fun h => hah h ⟨hm, hs, hms⟩, fun h => ham h ⟨hm, hs, hms⟩,
    fun h => has h ⟨hm, hs, hms⟩, fun h => hams h, ?_, ?_⟩
  · intro h
    unfold Timestamp.add at h
    split at h
    next => exact absurd h (by simp)
    next t1 h1 =>
      split at h
      next => exact absurd h (by simp)
      next t2 h2 =>
        split at h
        next => exact absurd h (by simp)
        next t3 h3 => exact hams h
  · intro h
    unfold Timestamp.sub at h
    split at h
    next => exact absurd h (by simp)
    next t1 h1 =>
      split at h
      next => exact absurd h (by simp)
      next t2 h2 =>
        split at h
        next => exact absurd h (by simp)
        next t3 h3 => exact hah h (ham h3 (has h2 (hams h1)))

theorem norm_invariant_preserved_witness : (Timestamp.new 0 2 3 4).Norm :=
  (norm_invariant_preserved (Timestamp.new 0 1 3 4) (Timestamp.new 0 0 0 0) 1
    (Timestamp.new 0 0 0 0) (Timestamp.new 0 2 3 4) (Timestamp.new 0 0 0 0)
    (Timestamp.new 0 0 0 0) (Timestamp.new 0 0 0 0) (Timestamp.new 0 0 0 0)
    (by decide)).2.1 (by decide)

/-- C4: for a normalized timestamp, applying a multiset of single-field
deltas in any two orders that both complete without panicking yields the same
timestamp; in particular a non-panicking `add(d)` followed by a non-panicking
`sub(d)` restores the original timestamp, even though `add` applies fields
most-significant-first and `sub` least-significant-first. -/
theorem field_order_irrelevant :
    (∀ (t u1 u2 : Timestamp) (l1 l2 : List (TField × Int)), t.WF → l1.Perm l2 →
      t.applySeq l1 = some u1 → t.applySeq l2 = some u2 → u1 = u2) ∧
    (∀ (t d u w : Timestamp), t.WF → t.add d = some u → u.sub d = some w → w = t) := by
  constructor
  · intro t u1 u2 l1 l2 hw hperm h1 h2
    obtain ⟨hw1, hv1⟩ := applySeq_wf l1 t u1 hw h1
    obtain ⟨hw2, hv2⟩ := applySeq_wf l2 t u2 hw h2
    have hsum : sumContrib l1 = sumContrib l2 :=
      List.Perm.sum_eq (List.Perm.map _ hperm)
    exact val_inj hw1 hw2 (by rw [hv1, hv2, hsum])
  · intro t d u w hw hadd hsub
    obtain ⟨hwu, hvu⟩ := add_wf hw hadd
    obtain ⟨hww, hvw⟩ := sub_wf hwu hsub
    exact val_inj hww hw (by rw [hvw, hvu]; ring)

theorem field_order_irrelevant_witness :
    Timestamp.new 1 2 3 4 = Timestamp.new 1 2 3 4 :=
  field_order_irrelevant.2 (Timestamp.new 1 2 3 4) (Timestamp.new 1 1 1 1)
    (Timestamp.new 2 3 4 5) (Timestamp.new 1 2 3 4) (by decide) (by decide) (by decide)

/-! ### Decimal rendering parses back to the same value -/

/-- Characters produced by `digitChar` are decimal digits. -/
theorem digitChar_toNat {d : Nat} (h : d < 10) : (digitChar d).toNat = 48 + d := by
  interval_cases d <;> decide

theorem natDecAux_digit : ∀ (fuel n : Nat), n < fuel →
    ∀ c ∈ natDecAux fuel n, 48 ≤ c.toNat ∧ c.toNat ≤ 57 := by
  intro fuel
  induction fuel with
  | zero => intro n h; omega
  | succ f ih =>
    intro n hn c hc
    unfold natDecAux at hc
    split at hc
    next h10 =>
      simp only [List.mem_singleton] at hc
      subst hc
      rw [digitChar_toNat h10]
      omega
    next h10 =>
      rw [List.mem_append] at hc
      rcases hc with hc | hc
      · exact ih (n / 10) (by omega) c hc
      · simp only [List.mem_singleton] at hc
        subst hc
        rw [digitChar_toNat (by omega)]
        omega

theorem natDec_digit {n : Nat} : ∀ c ∈ natDec n, 48 ≤ c.toNat ∧ c.toNat ≤ 57 :=
  natDecAux_digit (n + 1) n (by omega)

theorem digitVal_digitChar {d : Nat} (h : d < 10) : digitVal (digitChar d) = some d := by
  unfold digitVal
  rw [digitChar_toNat h]
  rw [if_pos (by omega)]
  simp

theorem digitValsOf_append {a b : List Char} {da db : List Nat}
    (ha : digitValsOf a = some da) (hb : digitValsOf b = some db) :
    digitValsOf (a ++ b) = some (da ++ db) := by
  induction a generalizing da with
  | nil =>
    simp only [digitValsOf] at ha
    obtain rfl := Option.some.inj ha
    simpa using hb
  | cons c rest ih =>
    unfold digitValsOf at ha
    rcases hdc : digitVal c with _ | d
    · rw [hdc] at ha; exact absurd ha (by simp)
    · rw [hdc] at ha
      rcases hrest : digitValsOf rest with _ | ds
      · rw [hrest] at ha; exact absurd ha (by simp)
      · rw [hrest] at ha
        obtain rfl := Option.some.inj ha
        simp only [List.cons_append]
        unfold digitValsOf
        rw [hdc, ih hrest]

theorem digitsVal_acc (ds : List Nat) : ∀ a : Nat,
    List.foldl (fun x d => 10 * x + d) a ds = a * 10 ^ ds.length + digitsVal ds := by
  induction ds with
  | nil => intro a; simp [digitsVal]
  | cons d rest ih =>
    intro a
    simp only [List.foldl_cons, digitsVal, List.length_cons] at *
    rw [ih (10 * a + d), ih (10 * 0 + d)]
    ring

theorem digitsVal_append (a b : List Nat) :
    digitsVal (a ++ b) = digitsVal a * 10 ^ b.length + digitsVal b := by
  unfold digitsVal
  rw [List.foldl_append]
  exact digitsVal_acc b _

theorem natDecAux_val : ∀ (fuel n : Nat), n < fuel →
    ∃ ds, digitValsOf (natDecAux fuel n) = some ds ∧ ds ≠ [] ∧ digitsVal ds = n := by
  intro fuel
  induction fuel with
  | zero => intro n h; omega
  | succ f ih =>
    intro n hn
    unfold natDecAux
    by_cases h10 : n < 10
    · rw [if_pos h10]
      refine ⟨[n], ?_, by simp, by simp [digitsVal]⟩
      simp [digitValsOf, digitVal_digitChar h10]
    · rw [if_neg h10]
      obtain ⟨ds, h1, h2, h3⟩ := ih (n / 10) (by omega)
      have hd : digitValsOf [digitChar (n % 10)] = some [n % 10] := by
        simp [digitValsOf, digitVal_digitChar (Nat.mod_lt n (by omega))]
      refine ⟨ds ++ [n % 10], digitValsOf_append h1 hd, by simp, ?_⟩
      rw [digitsVal_append]
      simp only [List.length_singleton, pow_one]
      have hx : digitsVal [n % 10] = n % 10 := by simp [digitsVal]
      rw [hx, h3]
      omega

theorem natDec_ne_nil (n : Nat) : natDec n ≠ [] := by
  obtain ⟨ds, h1, h2, h3⟩ := natDecAux_val (n + 1) n (by omega)
  intro hc
  rw [natDec] at hc
  rw [hc] at h1
  simp only [digitValsOf] at h1
  exact h2 (Option.some.inj h1).symm

theorem digitValsOf_replicate_zero (k : Nat) :
    digitValsOf (List.replicate k '0') = some (List.replicate k 0) := by
  induction k with
  | zero => simp [digitValsOf]
  | succ j ih =>
    have h0 : digitVal '0' = some 0 := by decide
    simp only [List.replicate_succ]
    unfold digitValsOf
    rw [h0, ih]

theorem digitsVal_replicate_zero_append (k : Nat) (ds : List Nat) :
    digitsVal (List.replicate k 0 ++ ds) = digitsVal ds := by
  induction k with
  | zero => simp
  | succ j ih =>
    simp only [List.replicate_succ, List.cons_append]
    unfold digitsVal at *
    simpa using ih

theorem mem_padZeros_natDec {w n : Nat} : ∀ c ∈ padZeros w (natDec n),
    48 ≤ c.toNat ∧ c.toNat ≤ 57 := by
  intro c hc
  unfold padZeros at hc
  rw [List.mem_append] at hc
  rcases hc with hc | hc
  · obtain rfl := List.eq_of_mem_replicate hc
    exact ⟨by decide, by decide⟩
  · exact natDec_digit c hc

/-- Any character outside the digit block does not occur in a padded decimal
rendering. -/
theorem not_mem_padZeros_natDec {w n : Nat} {c : Char}
    (h : c.toNat ≤ 47 ∨ 58 ≤ c.toNat) : c ∉ padZeros w (natDec n) := by
  intro hc
  have := mem_padZeros_natDec c hc
  omega

theorem stripPlus_of_digits : ∀ {l : List Char}, (∀ c ∈ l, 48 ≤ c.toNat) →
    stripPlus l = l := by
  intro l h
  match l with
  | [] => rfl
  | c :: rest =>
    have hc : 48 ≤ c.toNat := h c (by simp)
    simp only [stripPlus]
    rw [if_neg ?hne]
    case hne =>
      intro hceq
      subst hceq
      exact absurd hc (by decide)

theorem parseUInt_padZeros_natDec (w m n : Nat) (h : n ≤ m) :
    parseUInt m (padZeros w (natDec n)) = some n := by
  obtain ⟨ds, h1, h2, h3⟩ := natDecAux_val (n + 1) n (by omega)
  have hsp : stripPlus (padZeros w (natDec n)) = padZeros w (natDec n) :=
    stripPlus_of_digits (fun c hc => (mem_padZeros_natDec c hc).1)
  have h1a : digitValsOf (natDec n) = some ds := h1
  unfold parseUInt
  rw [hsp]
  unfold padZeros
  rw [digitValsOf_append (digitValsOf_replicate_zero _) h1a]
  dsimp only
  have hne : (List.replicate (w - (natDec n).length) 0 ++ ds).isEmpty = false := by
    rcases ds with _ | ⟨d, ds⟩
    · exact absurd rfl h2
    · simp
  rw [if_neg (by rw [hne]; exact Bool.false_ne_true)]
  rw [digitsVal_replicate_zero_append, h3, if_pos h]

/-- Decimal rendering of an overflowing value is rejected by the
width-bounded integer parser. -/
theorem parseUInt_natDec_overflow {m n : Nat} (h : m < n) :
    parseUInt m (natDec n) = none := by
  obtain ⟨ds, h1, h2, h3⟩ := natDecAux_val (n + 1) n (by omega)
  have hsp : stripPlus (natDec n) = natDec n :=
    stripPlus_of_digits (fun c hc => (natDec_digit c hc).1)
  have h1a : digitValsOf (natDec n) = some ds := h1
  unfold parseUInt
  rw [hsp, h1a]
  dsimp only
  have hne : ds.isEmpty = false := by
    rcases ds with _ | _
    · exact absurd rfl h2
    · simp
  rw [if_neg (by rw [hne]; exact Bool.false_ne_true)]
  rw [h3, if_neg (by omega)]

theorem parseUInt_le {m : Nat} {l : List Char} {v : Nat} (h : parseUInt m l = some v) :
    v ≤ m := by
  unfold parseUInt at h
  split at h
  next => exact absurd h (by simp)
  next ds hds =>
    split at h
    next => exact absurd h (by simp)
    next =>
      split at h
      next hle => obtain rfl := Option.some.inj h; exact hle
      next => exact absurd h (by simp)

/-! ### Splitting lemmas -/

theorem splitOnceChar_of_not_mem {sep : Char} : ∀ {l : List Char}, sep ∉ l →
    splitOnceChar sep l = none := by
  intro l h
  induction l with
  | nil => rfl
  | cons c rest ih =>
    unfold splitOnceChar
    rw [List.mem_cons, not_or] at h
    rw [if_neg (fun hc => h.1 hc.symm), ih h.2]

theorem splitOnceChar_first {sep : Char} : ∀ {a b : List Char}, sep ∉ a →
    splitOnceChar sep (a ++ sep :: b) = some (a, b) := by
  intro a
  induction a with
  | nil => intro b h; simp [splitOnceChar]
  | cons c rest ih =>
    intro b h
    rw [List.mem_cons, not_or] at h
    simp only [List.cons_append]
    unfold splitOnceChar
    rw [if_neg (fun hc => h.1 hc.symm), ih h.2]

theorem splitnChar_three {sep : Char} {a b c : List Char} (ha : sep ∉ a) (hb : sep ∉ b) :
    splitnChar 3 sep (a ++ sep :: (b ++ sep :: c)) = [a, b, c] := by
  show splitnChar (1 + 2) sep _ = _
  unfold splitnChar
  rw [splitOnceChar_first ha]
  dsimp only
  show _ :: splitnChar (0 + 2) sep _ = _
  unfold splitnChar
  rw [splitOnceChar_first hb]
  rfl

theorem splitnChar_two {sep : Char} {a b : List Char} (ha : sep ∉ a) :
    splitnChar 2 sep (a ++ sep :: b) = [a, b] := by
  show splitnChar (0 + 2) sep _ = _
  unfold splitnChar
  rw [splitOnceChar_first ha]
  rfl

theorem splitnChar_two_of_not_mem {sep : Char} {l : List Char} (h : sep ∉ l) :
    splitnChar 2 sep l = [l] := by
  show splitnChar (0 + 2) sep _ = _
  unfold splitnChar
  rw [splitOnceChar_of_not_mem h]

/-! ### Timestamp text round-trip -/

/-- Rendering with the `Display` format and reparsing recovers any timestamp
whose fields fit their storage widths. -/
theorem timestamp_parse_render {t : Timestamp} (hh : t.hours ≤ 255) (hm : t.minutes ≤ 255)
    (hs : t.seconds ≤ 255) (hms : t.milliseconds ≤ 65535) :
    Timestamp.parse t.render = .ok t := by
  have hc1 : ':' ∉ padZeros 2 (natDec t.hours) :=
    not_mem_padZeros_natDec (by right; decide)
  have hc2 : ':' ∉ padZeros 2 (natDec t.minutes) :=
    not_mem_padZeros_natDec (by right; decide)
  have hc3 : ',' ∉ padZeros 2 (natDec t.seconds) :=
    not_mem_padZeros_natDec (by left; decide)
  unfold Timestamp.parse Timestamp.render
  rw [splitnChar_three hc1 hc2]
  dsimp only
  rw [parseUInt_padZeros_natDec 2 255 t.hours hh]
  dsimp only
  rw [parseUInt_padZeros_natDec 2 255 t.minutes hm]
  dsimp only
  rw [splitnChar_two hc3]
  dsimp only
  rw [parseUInt_padZeros_natDec 2 255 t.seconds hs]
  dsimp only
  rw [parseUInt_padZeros_natDec 3 65535 t.milliseconds hms]
  rfl

theorem ts_roundtrip_of_wf (t : Timestamp) (h : t.WF) :
    Timestamp.parse t.render = .ok t :=
  timestamp_parse_render h.1 (le_trans h.2.1 (by norm_num))
    (le_trans h.2.2.1 (by norm_num)) (le_trans h.2.2.2 (by norm_num))

/-- C5: for every timestamp with hours in `0..=255`, minutes and seconds in
`0..=59` and milliseconds in `0..=999`, rendering as `HH:MM:SS,mmm` text and
parsing that text back succeeds and returns the same timestamp. -/
theorem timestamp_text_roundtrip (t : Timestamp) (h : t.WF) :
    Timestamp.parse t.render = .ok t :=
  ts_roundtrip_of_wf t h

theorem timestamp_text_roundtrip_witness :
    Timestamp.parse (Timestamp.new 12 34 56 789).render = .ok (Timestamp.new 12 34 56 789) :=
  timestamp_text_roundtrip (Timestamp.new 12 34 56 789) (by decide)

/-! ### Missing fields and width overflow in `Timestamp::parse` (C6) -/

theorem splitnChar_three_of_not_mem {sep : Char} {l : List Char} (h : sep ∉ l) :
    splitnChar 3 sep l = [l] := by
  show splitnChar (1 + 2) sep _ = _
  unfold splitnChar
  rw [splitOnceChar_of_not_mem h]

theorem splitnChar_three_head {sep : Char} {a rest : List Char} (ha : sep ∉ a) :
    splitnChar 3 sep (a ++ sep :: rest) = a :: splitnChar 2 sep rest := by
  show splitnChar (1 + 2) sep _ = _
  unfold splitnChar
  rw [splitOnceChar_first ha]
  rfl

/-- C6 counterexample: `"xy"` is an input with fewer than three
colon-separated top-level fields, yet `Timestamp::parse` reports
`ParseIntError` (the hours field is parsed, and fails, before the iterator is
found exhausted), not `MalformedTimestamp`. -/
theorem parse_missing_field_counterexample :
    (splitnChar 3 ':' "xy".toList).length < 3 ∧
    Timestamp.parse "xy".toList = .error .parseIntError ∧
    Timestamp.parse "xy".toList ≠ .error .malformedTimestamp := by
  refine ⟨by decide, by decide, by decide⟩

/-- C6 (amended): provided every field before the missing separator parses
successfully as an integer of its width, a missing later field — fewer than
three colon-separated top-level fields, or no comma in the third field — is
reported as `MalformedTimestamp`; and when a field overflows its storage
width — hours, minutes or seconds above 8 bits, milliseconds above 16 bits,
every earlier field in range — the result is `ParseIntError`, never silent
truncation. -/
theorem parse_missing_field_errors :
    (∀ (a : List Char) (hA : Nat), ':' ∉ a → parseUInt 255 a = some hA →
      Timestamp.parse a = .error .malformedTimestamp) ∧
    (∀ (a b : List Char) (hA hB : Nat), ':' ∉ a → ':' ∉ b →
      parseUInt 255 a = some hA → parseUInt 255 b = some hB →
      Timestamp.parse (a ++ ':' :: b) = .error .malformedTimestamp) ∧
    (∀ (a b c : List Char) (hA hB hC : Nat), ':' ∉ a → ':' ∉ b → ',' ∉ c →
      parseUInt 255 a = some hA → parseUInt 255 b = some hB → parseUInt 255 c = some hC →
      Timestamp.parse (a ++ ':' :: (b ++ ':' :: c)) = .error .malformedTimestamp) ∧
    (∀ (n : Nat) (rest : List Char), 255 < n →
      Timestamp.parse (natDec n ++ ':' :: rest) = .error .parseIntError) ∧
    (∀ (h m : Nat) (rest : List Char), h ≤ 255 → 255 < m →
      Timestamp.parse (natDec h ++ ':' :: (natDec m ++ ':' :: rest)) =
        .error .parseIntError) ∧
    (∀ (h m s : Nat) (rest : List Char), h ≤ 255 → m ≤ 255 → 255 < s →
      Timestamp.parse (natDec h ++ ':' :: (natDec m ++ ':' :: (natDec s ++ ',' :: rest))) =
        .error .parseIntError) ∧
    (∀ (h m s n : Nat), h ≤ 255 → m ≤ 255 → s ≤ 255 → 65535 < n →
      Timestamp.parse (natDec h ++ ':' :: (natDec m ++ ':' :: (natDec s ++ ',' :: natDec n))) =
        .error .parseIntError) := by
  refine ⟨?_, ?_, ?_, ?_, ?_, ?_, ?_⟩
  · intro a hA ha hpa
    unfold Timestamp.parse
    rw [splitnChar_three_of_not_mem ha]
    dsimp only
    rw [hpa]
  · intro a b hA hB ha hb hpa hpb
    unfold Timestamp.parse
    rw [splitnChar_three_head ha, splitnChar_two_of_not_mem hb]
    dsimp only
    rw [hpa]
    dsimp only
    rw [hpb]
  · intro a b c hA hB hC ha hb hc hpa hpb hpc
    unfold Timestamp.parse
    rw [splitnChar_three ha hb]
    dsimp only
    rw [hpa]
    dsimp only
    rw [hpb]
    dsimp only
    rw [splitnChar_two_of_not_mem hc]
    dsimp only
    rw [hpc]
  · intro n rest hn
    have ha : ':' ∉ natDec n := by
      intro hmem
      have := natDec_digit _ hmem
      revert this
      decide
    unfold Timestamp.parse
    rw [splitnChar_three_head ha]
    dsimp only
    rw [parseUInt_natDec_overflow hn]
  · intro h m rest hh hm
    have hca : ':' ∉ natDec h := by
      intro hmem; have := natDec_digit _ hmem; revert this; decide
    have hcb : ':' ∉ natDec m := by
      intro hmem; have := natDec_digit _ hmem; revert this; decide
    have hph : parseUInt 255 (natDec h) = some h := by
      have := parseUInt_padZeros_natDec 0 255 h hh
      rwa [padZeros, Nat.zero_sub, List.replicate_zero, List.nil_append] at this
    unfold Timestamp.parse
    rw [splitnChar_three hca hcb]
    dsimp only
    rw [hph]
    dsimp only
    rw [parseUInt_natDec_overflow hm]
  · intro h m s rest hh hm hs
    have hca : ':' ∉ natDec h := by
      intro hmem; have := natDec_digit _ hmem; revert this; decide
    have hcb : ':' ∉ natDec m := by
      intro hmem; have := natDec_digit _ hmem; revert this; decide
    have hcc : ',' ∉ natDec s := by
      intro hmem; have := natDec_digit _ hmem; revert this; decide
    have hph : parseUInt 255 (natDec h) = some h := by
      have := parseUInt_padZeros_natDec 0 255 h hh
      rwa [padZeros, Nat.zero_sub, List.replicate_zero, List.nil_append] at this
    have hpm : parseUInt 255 (natDec m) = some m := by
      have := parseUInt_padZeros_natDec 0 255 m hm
      rwa [padZeros, Nat.zero_sub, List.replicate_zero, List.nil_append] at this
    unfold Timestamp.parse
    rw [splitnChar_three hca hcb]
    dsimp only
    rw [hph]
    dsimp only
    rw [hpm]
    dsimp only
    rw [splitnChar_two hcc]
    dsimp only
    rw [parseUInt_natDec_overflow hs]
  · intro h m s n hh hm hs hn
    have hca : ':' ∉ natDec h := by
      intro hmem; have := natDec_digit _ hmem; revert this; decide
    have hcb : ':' ∉ natDec m := by
      intro hmem; have := natDec_digit _ hmem; revert this; decide
    have hcc : ',' ∉ natDec s := by
      intro hmem; have := natDec_digit _ hmem; revert this; decide
    have hph : parseUInt 255 (natDec h) = some h := by
      have := parseUInt_padZeros_natDec 0 255 h hh
      rwa [padZeros, Nat.zero_sub, List.replicate_zero, List.nil_append] at this
    have hpm : parseUInt 255 (natDec m) = some m := by
      have := parseUInt_padZeros_natDec 0 255 m hm
      rwa [padZeros, Nat.zero_sub, List.replicate_zero, List.nil_append] at this
    have hps : parseUInt 255 (natDec s) = some s := by
      have := parseUInt_padZeros_natDec 0 255 s hs
      rwa [padZeros, Nat.zero_sub, List.replicate_zero, List.nil_append] at this
    unfold Timestamp.parse
    rw [splitnChar_three hca hcb]
    dsimp only
    rw [hph]
    dsimp only
    rw [hpm]
    dsimp only
    rw [splitnChar_two hcc]
    dsimp only
    rw [hps]
    dsimp only
    rw [parseUInt_natDec_overflow hn]

theorem parse_missing_field_errors_witness :
    Timestamp.parse "12".toList = .error .malformedTimestamp ∧
    Timestamp.parse (natDec 1 ++ ':' :: (natDec 300 ++ ':' :: "2,4".toList)) =
      .error .parseIntError ∧
    Timestamp.parse (natDec 1 ++ ':' :: (natDec 2 ++ ':' :: (natDec 300 ++ ',' :: "4".toList))) =
      .error .parseIntError :=
  ⟨parse_missing_field_errors.1 "12".toList 12 (by decide) (by decide),
   parse_missing_field_errors.2.2.2.2.1 1 300 "2,4".toList (by decide) (by decide),
   parse_missing_field_errors.2.2.2.2.2.1 1 2 300 "4".toList (by decide) (by decide) (by decide)⟩

/-! ### Subtitle entries -/

/-- The `" --> "` time-range separator. -/
def arrowSep : List Char := [' ', '-', '-', '>', ' ']

/-- Split at the first occurrence of the (non-empty) separator substring, as
one step of Rust's `str::split(&str)`. -/
def splitOnceSub (sep : List Char) : List Char → Option (List Char × List Char)
  | [] => none
  | c :: rest =>
    if sep.isPrefixOf (c :: rest) then some ([], (c :: rest).drop sep.length)
    else match splitOnceSub sep rest with
      | none => none
      | some (a, b) => some (c :: a, b)

/-- First element yielded by Rust's `split(sep)` iterator. -/
def iterFirst (sep l : List Char) : List Char :=
  match splitOnceSub sep l with
  | none => l
  | some (a, _) => a

/-- Second element yielded by Rust's `split(sep)` iterator, when the
separator occurs at all. -/
def iterSecond (sep l : List Char) : Option (List Char) :=
  match splitOnceSub sep l with
  | none => none
  | some (_, b) => some (iterFirst sep b)

/-- First element of `split(' ')`: the input up to the first space. -/
def firstSpaceToken (l : List Char) : List Char :=
  match splitOnceChar ' ' l with
  | none => l
  | some (a, _) => a

/-- `trim_start_matches('\n')`. -/
def trimNewlines (l : List Char) : List Char := l.dropWhile (fun c => c = '\n')

/-- Maximum value of Rust's 64-bit `usize`. -/
def usizeMax : Nat := 18446744073709551615

/-- One subtitle: ordinal, start and end timestamps, free text. -/
structure Subtitle where
  num : Nat
  start_time : Timestamp
  end_time : Timestamp
  text : List Char
deriving DecidableEq, Repr

/-- `Subtitle::new`. -/
def Subtitle.new (num : Nat) (start_time end_time : Timestamp) (text : List Char) : Subtitle :=
  ⟨num, start_time, end_time, text⟩

/-- `Subtitle::parse`: strip leading line breaks, `splitn(3, '\n')`; ordinal
as `usize`; the time line split on `" --> "`, the end token truncated at the
first space; the third chunk (with its embedded line breaks) is the text. -/
def Subtitle.parse (input : List Char) : PResult Subtitle :=
  match splitnChar 3 '\n' (trimNewlines input) with
  | [] => .error (.badSubtitleStructure 0)
  | numF :: rest =>
    match parseUInt usizeMax numF with
    | none => .error .parseIntError
    | some num =>
      match rest with
      | [] => .error (.badSubtitleStructure num)
      | timeF :: rest2 =>
        match Timestamp.parse (iterFirst arrowSep timeF) with
        | .error e => .error e
        | .ok start_time =>
          match iterSecond arrowSep timeF with
          | none => .error (.badSubtitleStructure num)
          | some endF =>
            match Timestamp.parse (firstSpaceToken endF) with
            | .error e => .error e
            | .ok end_time =>
              match rest2 with
              | [] => .error (.badSubtitleStructure num)
              | textF :: _ => .ok (Subtitle.new num start_time end_time textF)

/-- `Display for Subtitle`: `"{}\n{} --> {}\n{}"`. -/
def Subtitle.render (s : Subtitle) : List Char :=
  natDec s.num ++ '\n' ::
    (Timestamp.render s.start_time ++ arrowSep ++
      (Timestamp.render s.end_time ++ '\n' :: s.text))

/-! ### Character-class facts for rendering -/

theorem mem_timestamp_render {t : Timestamp} {c : Char} (h : c ∈ t.render) :
    44 ≤ c.toNat ∧ c.toNat ≤ 58 := by
  unfold Timestamp.render at h
  simp only [List.mem_append, List.mem_cons] at h
  rcases h with h | h | h | h | h | h | h
  · have := mem_padZeros_natDec c h; omega
  · subst h; exact ⟨by decide, by decide⟩
  · have := mem_padZeros_natDec c h; omega
  · subst h; exact ⟨by decide, by decide⟩
  · have := mem_padZeros_natDec c h; omega
  · subst h; exact ⟨by decide, by decide⟩
  · have := mem_padZeros_natDec c h; omega

theorem space_not_mem_render {t : Timestamp} : ' ' ∉ t.render := by
  intro h
  have := mem_timestamp_render h
  revert this
  decide

theorem newline_not_mem_render {t : Timestamp} : '\n' ∉ t.render := by
  intro h
  have := mem_timestamp_render h
  revert this
  decide

theorem newline_not_mem_natDec {n : Nat} : '\n' ∉ natDec n := by
  intro h
  have := natDec_digit _ h
  revert this
  decide

theorem parseUInt_natDec {m n : Nat} (h : n ≤ m) : parseUInt m (natDec n) = some n := by
  have h2 := parseUInt_padZeros_natDec 0 m n h
  rwa [padZeros, Nat.zero_sub, List.replicate_zero, List.nil_append] at h2

theorem trimNewlines_of_digit_head {a rest : List Char} (hne : a ≠ [])
    (hd : ∀ c ∈ a, 48 ≤ c.toNat ∧ c.toNat ≤ 57) :
    trimNewlines (a ++ rest) = a ++ rest := by
  rcases a with _ | ⟨c, as⟩
  · exact absurd rfl hne
  · have hc := hd c (by simp)
    unfold trimNewlines
    simp only [List.cons_append, List.dropWhile_cons]
    rw [if_neg]
    simp only [decide_eq_true_eq]
    intro hc2
    subst hc2
    revert hc
    decide

/-! ### Occurrences of the arrow separator -/

theorem splitOnceSub_arrow_of_no_space : ∀ {l : List Char}, ' ' ∉ l →
    splitOnceSub arrowSep l = none := by
  intro l h
  induction l with
  | nil => rfl
  | cons c rest ih =>
    rw [List.mem_cons, not_or] at h
    unfold splitOnceSub
    rw [if_neg ?hpre, ih h.2]
    case hpre =>
      intro hp
      rw [List.isPrefixOf_iff_prefix] at hp
      obtain ⟨tl, htl⟩ := hp
      have : c = ' ' := by
        have := congrArg (fun l => l.head?) htl
        simpa [arrowSep] using this.symm
      exact h.1 this.symm

theorem splitOnceSub_arrow_first : ∀ {a : List Char} (b : List Char), ' ' ∉ a →
    splitOnceSub arrowSep (a ++ arrowSep ++ b) = some (a, b) := by
  intro a
  induction a with
  | nil =>
    intro b _
    show splitOnceSub arrowSep (([] : List Char) ++ arrowSep ++ b) = some ([], b)
    simp only [List.nil_append, arrowSep, List.cons_append]
    simp [splitOnceSub, List.isPrefixOf]
  | cons c rest ih =>
    intro b h
    rw [List.mem_cons, not_or] at h
    simp only [List.cons_append]
    unfold splitOnceSub
    rw [if_neg ?hpre]
    · rw [ih b h.2]
    case hpre =>
      intro hp
      rw [List.isPrefixOf_iff_prefix] at hp
      obtain ⟨tl, htl⟩ := hp
      have : c = ' ' := by
        have := congrArg (fun l => l.head?) htl
        simpa [arrowSep] using this.symm
      exact h.1 this.symm

theorem newline_not_mem_timeline {t1 t2 : Timestamp} :
    '\n' ∉ Timestamp.render t1 ++ arrowSep ++ Timestamp.render t2 := by
  intro h
  rcases List.mem_append.1 h with h | h
  · rcases List.mem_append.1 h with h | h
    · exact newline_not_mem_render h
    · revert h; decide
  · exact newline_not_mem_render h

theorem iterFirst_arrow_join {a b : List Char} (ha : ' ' ∉ a) :
    iterFirst arrowSep (a ++ arrowSep ++ b) = a := by
  unfold iterFirst
  rw [splitOnceSub_arrow_first b ha]

theorem iterSecond_arrow_join {a b : List Char} (ha : ' ' ∉ a) (hb : ' ' ∉ b) :
    iterSecond arrowSep (a ++ arrowSep ++ b) = some b := by
  unfold iterSecond
  rw [splitOnceSub_arrow_first b ha]
  dsimp only
  unfold iterFirst
  rw [splitOnceSub_arrow_of_no_space hb]

theorem iterFirst_arrow_of_no_space {l : List Char} (h : ' ' ∉ l) :
    iterFirst arrowSep l = l := by
  unfold iterFirst
  rw [splitOnceSub_arrow_of_no_space h]

theorem iterSecond_arrow_of_no_space {l : List Char} (h : ' ' ∉ l) :
    iterSecond arrowSep l = none := by
  unfold iterSecond
  rw [splitOnceSub_arrow_of_no_space h]

theorem firstSpaceToken_of_no_space {l : List Char} (h : ' ' ∉ l) :
    firstSpaceToken l = l := by
  unfold firstSpaceToken
  rw [splitOnceChar_of_not_mem h]

/-- C7 counterexample: an input whose ordinal line is present but not a
number — so the ordinal is "missing" as a parsed value — fails with
`ParseIntError`, not with the structural `BadSubtitleStructure` error
carrying the `unknown` marker (`0`). -/
theorem subtitle_structural_counterexample :
    Subtitle.parse "x\n00:00:00,000 --> 00:00:01,000\nhi".toList = .error .parseIntError ∧
    Subtitle.parse "x\n00:00:00,000 --> 00:00:01,000\nhi".toList ≠
      .error (.badSubtitleStructure 0) := by
  exact ⟨by decide, by decide⟩

/-- C7 (amended): when the ordinal line parses as an integer and the
time-range line is well-formed, a missing text section fails with
`BadSubtitleStructure` carrying the parsed ordinal, and so does a missing
`" --> "` separator when the whole time line is itself a valid timecode;
but a missing or non-numeric ordinal line fails with the integer parser's
`ParseIntError` (and a malformed timecode with its own error), not with the
structural error. -/
theorem subtitle_structural_errors :
    (∀ (n : Nat) (t1 t2 : Timestamp), n ≤ usizeMax → t1.WF → t2.WF →
      Subtitle.parse
          (natDec n ++ '\n' :: (Timestamp.render t1 ++ arrowSep ++ Timestamp.render t2)) =
        .error (.badSubtitleStructure n)) ∧
    (∀ (n : Nat) (t1 : Timestamp), n ≤ usizeMax → t1.WF →
      Subtitle.parse (natDec n ++ '\n' :: Timestamp.render t1) =
        .error (.badSubtitleStructure n)) := by
  constructor
  · intro n t1 t2 hn h1 h2
    unfold Subtitle.parse
    rw [trimNewlines_of_digit_head (natDec_ne_nil n) (fun c hc => natDec_digit c hc),
      splitnChar_three_head newline_not_mem_natDec,
      splitnChar_two_of_not_mem newline_not_mem_timeline]
    dsimp only
    rw [parseUInt_natDec hn]
    dsimp only
    rw [iterFirst_arrow_join space_not_mem_render,
      ts_roundtrip_of_wf t1 h1]
    dsimp only
    rw [iterSecond_arrow_join space_not_mem_render space_not_mem_render]
    dsimp only
    rw [firstSpaceToken_of_no_space space_not_mem_render,
      ts_roundtrip_of_wf t2 h2]
  · intro n t1 hn h1
    unfold Subtitle.parse
    rw [trimNewlines_of_digit_head (natDec_ne_nil n) (fun c hc => natDec_digit c hc),
      splitnChar_three_head newline_not_mem_natDec,
      splitnChar_two_of_not_mem newline_not_mem_render]
    dsimp only
    rw [parseUInt_natDec hn]
    dsimp only
    rw [iterFirst_arrow_of_no_space space_not_mem_render,
      ts_roundtrip_of_wf t1 h1]
    dsimp only
    rw [iterSecond_arrow_of_no_space space_not_mem_render]

theorem subtitle_structural_errors_witness :
    Subtitle.parse
        (natDec 7 ++ '\n' ::
          (Timestamp.render (Timestamp.new 0 0 0 0) ++ arrowSep ++
            Timestamp.render (Timestamp.new 0 0 1 0))) =
      .error (.badSubtitleStructure 7) :=
  subtitle_structural_errors.1 7 (Timestamp.new 0 0 0 0) (Timestamp.new 0 0 1 0)
    (by decide) (by decide) (by decide)

/-! ### The derived ordering on `Subtitle` and sorting (C8) -/

/-- The derived `Ord` on `Timestamp`: fields compared lexicographically in
declaration order. -/
def Timestamp.cmp : Timestamp → Timestamp → Ordering :=
  compareLex (fun a b => compare a.hours b.hours)
    (compareLex (fun a b => compare a.minutes b.minutes)
      (compareLex (fun a b => compare a.seconds b.seconds)
        (fun a b => compare a.milliseconds b.milliseconds)))

/-- Lexicographic comparison of char lists, as Rust's `Ord` on `String`
(UTF-8 byte order agrees with code-point order). -/
def charListCmp : List Char → List Char → Ordering
  | [], [] => .eq
  | [], _ :: _ => .lt
  | _ :: _, [] => .gt
  | a :: as, b :: bs => (compare a b).then (charListCmp as bs)

/-- The derived `Ord` on `Subtitle`: `num`, then `start_time`, then
`end_time`, then `text`. -/
def Subtitle.cmp : Subtitle → Subtitle → Ordering :=
  compareLex (fun a b => compare a.num b.num)
    (compareLex (fun a b => Timestamp.cmp a.start_time b.start_time)
      (compareLex (fun a b => Timestamp.cmp a.end_time b.end_time)
        (fun a b => charListCmp a.text b.text)))

/-- `a ≤ b` under the derived ordering, as used by `Vec::sort`. -/
def Subtitle.le (a b : Subtitle) : Bool :=
  match Subtitle.cmp a b with
  | .gt => false
  | _ => true

/-- `Subtitles::sort`: Rust's stable nondecreasing sort by the derived
ordering (extensionally, stable merge sort). -/
def Subtitles.sortList (l : List Subtitle) : List Subtitle :=
  l.mergeSort Subtitle.le

theorem transCmp_on {β : Type} {cmp : β → β → Ordering} (inst : Batteries.TransCmp cmp)
    {α : Type} (f : α → β) : Batteries.TransCmp (fun a b => cmp (f a) (f b)) where
  symm a b := inst.symm (f a) (f b)
  le_trans h1 h2 := inst.le_trans h1 h2

theorem transCmp_lex {α : Type} {c1 c2 : α → α → Ordering} (i1 : Batteries.TransCmp c1)
    (i2 : Batteries.TransCmp c2) : Batteries.TransCmp (compareLex c1 c2) := by
  letI := i1
  letI := i2
  infer_instance

theorem tsCmp_transCmp : Batteries.TransCmp Timestamp.cmp := by
  unfold Timestamp.cmp
  exact transCmp_lex (transCmp_on inferInstance _)
    (transCmp_lex (transCmp_on inferInstance _)
      (transCmp_lex (transCmp_on inferInstance _) (transCmp_on inferInstance _)))

theorem charListCmp_symm : ∀ (a b : List Char), (charListCmp a b).swap = charListCmp b a := by
  intro a
  induction a with
  | nil => intro b; cases b <;> rfl
  | cons c as ih =>
    intro b
    cases b with
    | nil => rfl
    | cons d bs =>
      show ((compare c d).then (charListCmp as bs)).swap = (compare d c).then (charListCmp bs as)
      rw [Ordering.swap_then, ih bs, Batteries.OrientedCmp.symm c d]

theorem charListCmp_oriented : Batteries.OrientedCmp charListCmp :=
  ⟨fun a b => charListCmp_symm a b⟩

theorem charListCmp_le_trans : ∀ (a b c : List Char), charListCmp a b ≠ .gt →
    charListCmp b c ≠ .gt → charListCmp a c ≠ .gt := by
  intro a
  induction a with
  | nil =>
    intro b c _ _
    cases c <;> simp [charListCmp]
  | cons x as ih =>
    intro b c h1 h2
    cases b with
    | nil => simp [charListCmp] at h1
    | cons y bs =>
      cases c with
      | nil => simp [charListCmp] at h2
      | cons z cs =>
        simp only [charListCmp, ne_eq, Ordering.then_eq_gt, not_or, not_and] at h1 h2 ⊢
        refine ⟨Batteries.TransCmp.le_trans h1.1 h2.1, fun e1 => ?_⟩
        match ab : compare x y with
        | .gt => exact absurd ab h1.1
        | .eq =>
          exact ih bs cs (h1.2 ab) (h2.2 (Batteries.TransCmp.cmp_congr_left ab ▸ e1))
        | .lt =>
          have hzy : compare z y = Ordering.lt := Batteries.TransCmp.cmp_congr_left e1 ▸ ab
          have hyz : compare y z = Ordering.gt := Iff.mpr Batteries.OrientedCmp.cmp_eq_gt hzy
          exact absurd hyz h2.1

theorem charListCmp_transCmp : Batteries.TransCmp charListCmp :=
  { charListCmp_oriented with le_trans := fun h1 h2 => charListCmp_le_trans _ _ _ h1 h2 }

theorem subCmp_transCmp : Batteries.TransCmp Subtitle.cmp := by
  unfold Subtitle.cmp
  exact transCmp_lex (transCmp_on inferInstance _)
    (transCmp_lex (transCmp_on tsCmp_transCmp _)
      (transCmp_lex (transCmp_on tsCmp_transCmp _) (transCmp_on charListCmp_transCmp _)))

theorem sub_le_iff {a b : Subtitle} : Subtitle.le a b = true ↔ Subtitle.cmp a b ≠ .gt := by
  unfold Subtitle.le
  cases h : Subtitle.cmp a b <;> simp

theorem sub_le_trans {a b c : Subtitle} (h1 : Subtitle.le a b = true)
    (h2 : Subtitle.le b c = true) : Subtitle.le a c = true := by
  rw [sub_le_iff] at *
  exact subCmp_transCmp.le_trans h1 h2

theorem sub_le_total (a b : Subtitle) : (Subtitle.le a b || Subtitle.le b a) = true := by
  rcases h : Subtitle.cmp a b with _ | _ | _
  · have : Subtitle.le a b = true := by rw [sub_le_iff, h]; simp
    simp [this]
  · have : Subtitle.le a b = true := by rw [sub_le_iff, h]; simp
    simp [this]
  · haveI := subCmp_transCmp
    have hba : Subtitle.cmp b a = .lt := Iff.mp Batteries.OrientedCmp.cmp_eq_gt h
    have : Subtitle.le b a = true := by rw [sub_le_iff, hba]; simp
    simp [this]

theorem tsCmp_eq_iff {a b : Timestamp} : Timestamp.cmp a b = .eq ↔ a = b := by
  unfold Timestamp.cmp compareLex
  simp only [Ordering.then_eq_eq, Batteries.BEqCmp.cmp_iff_eq]
  cases a; cases b
  simp [Timestamp.mk.injEq]

theorem charListCmp_eq_iff : ∀ {a b : List Char}, charListCmp a b = .eq ↔ a = b := by
  intro a
  induction a with
  | nil => intro b; cases b <;> simp [charListCmp]
  | cons c as ih =>
    intro b
    cases b with
    | nil => simp [charListCmp]
    | cons d bs =>
      show (compare c d).then (charListCmp as bs) = .eq ↔ _
      simp only [Ordering.then_eq_eq, Batteries.BEqCmp.cmp_iff_eq, ih, List.cons.injEq]

theorem subCmp_eq_iff {a b : Subtitle} : Subtitle.cmp a b = .eq ↔ a = b := by
  unfold Subtitle.cmp compareLex
  simp only [Ordering.then_eq_eq, Batteries.BEqCmp.cmp_iff_eq, tsCmp_eq_iff, charListCmp_eq_iff]
  cases a; cases b
  simp [Subtitle.mk.injEq]

/-- C8 counterexample: two subtitles agreeing on ordinal, start time and end
time but differing in text compare as `lt`, not `eq` — the derived ordering
of the source also compares the `text` field as a final tie-break. -/
theorem subtitle_order_counterexample :
    (Subtitle.new 1 (Timestamp.new 0 0 0 0) (Timestamp.new 0 0 1 0) ['a']).num =
      (Subtitle.new 1 (Timestamp.new 0 0 0 0) (Timestamp.new 0 0 1 0) ['b']).num ∧
    (Subtitle.new 1 (Timestamp.new 0 0 0 0) (Timestamp.new 0 0 1 0) ['a']).start_time =
      (Subtitle.new 1 (Timestamp.new 0 0 0 0) (Timestamp.new 0 0 1 0) ['b']).start_time ∧
    (Subtitle.new 1 (Timestamp.new 0 0 0 0) (Timestamp.new 0 0 1 0) ['a']).end_time =
      (Subtitle.new 1 (Timestamp.new 0 0 0 0) (Timestamp.new 0 0 1 0) ['b']).end_time ∧
    Subtitle.cmp (Subtitle.new 1 (Timestamp.new 0 0 0 0) (Timestamp.new 0 0 1 0) ['a'])
      (Subtitle.new 1 (Timestamp.new 0 0 0 0) (Timestamp.new 0 0 1 0) ['b']) = .lt := by
  exact ⟨rfl, rfl, rfl, by decide⟩

/-- C8 (amended): the derived total order on `Subtitle` compares ordinal
first, ties broken by start time, then end time, then by the subtitle text
(agreement on all four fields is what compares as equal); `Subtitles::sort`
stably reorders the collection into nondecreasing order under this
ordering — it returns a permutation that is pairwise nondecreasing and
preserves every already-nondecreasing subsequence — and concretely ordinals
2,1,3 sort to 1,2,3 while equal ordinals are ordered by start time. -/
theorem subtitle_order_sort :
    (∀ a b : Subtitle, a.num < b.num → Subtitle.cmp a b = .lt) ∧
    (∀ a b : Subtitle, a.num = b.num → Timestamp.cmp a.start_time b.start_time = .lt →
      Subtitle.cmp a b = .lt) ∧
    (∀ a b : Subtitle, a.num = b.num → a.start_time = b.start_time →
      Timestamp.cmp a.end_time b.end_time = .lt → Subtitle.cmp a b = .lt) ∧
    (∀ a b : Subtitle, a.num = b.num → a.start_time = b.start_time →
      a.end_time = b.end_time → a.text = b.text → Subtitle.cmp a b = .eq) ∧
    (∀ l : List Subtitle, (Subtitles.sortList l).Perm l) ∧
    (∀ l : List Subtitle, (Subtitles.sortList l).Pairwise (fun a b => Subtitle.le a b = true)) ∧
    (∀ c l : List Subtitle, c.Pairwise (fun a b => Subtitle.le a b = true) → c.Sublist l →
      c.Sublist (Subtitles.sortList l)) ∧
    Subtitles.sortList
        [Subtitle.new 2 (Timestamp.new 0 0 1 0) (Timestamp.new 0 0 2 0) [],
         Subtitle.new 1 (Timestamp.new 0 0 0 0) (Timestamp.new 0 0 1 0) [],
         Subtitle.new 3 (Timestamp.new 0 0 2 0) (Timestamp.new 0 0 3 0) []] =
      [Subtitle.new 1 (Timestamp.new 0 0 0 0) (Timestamp.new 0 0 1 0) [],
       Subtitle.new 2 (Timestamp.new 0 0 1 0) (Timestamp.new 0 0 2 0) [],
       Subtitle.new 3 (Timestamp.new 0 0 2 0) (Timestamp.new 0 0 3 0) []] ∧
    Subtitles.sortList
        [Subtitle.new 5 (Timestamp.new 0 0 9 0) (Timestamp.new 0 0 9 5) [],
         Subtitle.new 5 (Timestamp.new 0 0 4 0) (Timestamp.new 0 0 9 5) []] =
      [Subtitle.new 5 (Timestamp.new 0 0 4 0) (Timestamp.new 0 0 9 5) [],
       Subtitle.new 5 (Timestamp.new 0 0 9 0) (Timestamp.new 0 0 9 5) []] := by
  refine ⟨?_, ?_, ?_, ?_, ?_, ?_, ?_, ?_, ?_⟩
  · intro a b h
    have hc : compare a.num b.num = Ordering.lt := Iff.mpr Batteries.LTCmp.cmp_iff_lt h
    unfold Subtitle.cmp compareLex
    dsimp only
    rw [hc]
    rfl
  · intro a b hn hs
    have hc : compare a.num b.num = Ordering.eq := Iff.mpr Batteries.BEqCmp.cmp_iff_eq hn
    unfold Subtitle.cmp compareLex
    dsimp only
    rw [hc, hs]
    rfl
  · intro a b hn hs he
    have hc : compare a.num b.num = Ordering.eq := Iff.mpr Batteries.BEqCmp.cmp_iff_eq hn
    have hts : Timestamp.cmp a.start_time b.start_time = Ordering.eq :=
      Iff.mpr tsCmp_eq_iff hs
    unfold Subtitle.cmp compareLex
    dsimp only
    rw [hc, hts, he]
    rfl
  · intro a b h1 h2 h3 h4
    have hab : a = b := by
      cases a; cases b; simp_all
    rw [hab]
    exact Iff.mpr subCmp_eq_iff rfl
  · intro l
    exact List.mergeSort_perm l Subtitle.le
  · intro l
    exact List.sorted_mergeSort (fun a b c h1 h2 => @sub_le_trans a b c h1 h2) sub_le_total l
  · intro c l hp hs
    exact List.sublist_mergeSort (fun a b c h1 h2 => @sub_le_trans a b c h1 h2) sub_le_total hp hs
  · simp [Subtitles.sortList, List.mergeSort, Subtitle.le, Subtitle.cmp, compareLex,
      Ordering.then, Timestamp.cmp, charListCmp, Subtitle.new, Timestamp.new, compare,
      compareOfLessAndEq]
  · simp [Subtitles.sortList, List.mergeSort, Subtitle.le, Subtitle.cmp, compareLex,
      Ordering.then, Timestamp.cmp, charListCmp, Subtitle.new, Timestamp.new, compare,
      compareOfLessAndEq]

theorem subtitle_order_sort_witness :
    Subtitle.cmp (Subtitle.new 1 (Timestamp.new 0 0 0 0) (Timestamp.new 0 0 1 0) [])
      (Subtitle.new 2 (Timestamp.new 0 0 0 0) (Timestamp.new 0 0 1 0) []) = .lt :=
  subtitle_order_sort.1
    (Subtitle.new 1 (Timestamp.new 0 0 0 0) (Timestamp.new 0 0 1 0) [])
    (Subtitle.new 2 (Timestamp.new 0 0 0 0) (Timestamp.new 0 0 1 0) [])
    (by decide)

/-! ### The subtitle collection: `parse_from_str` and `Display` (C9) -/

/-- `trim_start_matches('\u{feff}')`: strip leading byte-order marks. -/
def trimBom (l : List Char) : List Char := l.dropWhile (fun c => c = '﻿')

/-- `replace('\r', "")`: remove every carriage return. -/
def stripCR (l : List Char) : List Char := l.filter (fun c => ¬ c = '\r')

/-- The blank-line separator `"\n\n"`. -/
def blankSep : List Char := ['\n', '\n']

/-- All pieces of Rust's `split(sep)` (fuel-driven; fuel `≥ length` suffices
for a non-empty separator). -/
def splitAllSub (sep : List Char) : Nat → List Char → List (List Char)
  | 0, l => [l]
  | fuel + 1, l =>
    match splitOnceSub sep l with
    | none => [l]
    | some (a, b) => a :: splitAllSub sep fuel b

/-- Rust `split_terminator(sep)`: like `split`, but a trailing empty piece is
dropped. -/
def splitTerm (sep l : List Char) : List (List Char) :=
  match (splitAllSub sep l.length l).getLast? with
  | some last =>
    if last.isEmpty then (splitAllSub sep l.length l).dropLast
    else splitAllSub sep l.length l
  | none => splitAllSub sep l.length l

/-- Parse each chunk in order, aborting at the first failure, as the loop in
`Subtitles::parse_from_str`. -/
def parseChunks : List (List Char) → PResult (List Subtitle)
  | [] => .ok []
  | c :: rest =>
    match Subtitle.parse c with
    | .error e => .error e
    | .ok s =>
      match parseChunks rest with
      | .error e => .error e
      | .ok ss => .ok (s :: ss)

/-- `Subtitles::parse_from_str`, parameterized by the alphanumeric test used
in the chunk filter (Rust's `char::is_alphanumeric`; any predicate that
accepts the decimal digits yields the behavior proved below). -/
def Subtitles.parse_from_str (pred : Char → Bool) (input : List Char) :
    PResult (List Subtitle) :=
  parseChunks (((splitTerm blankSep (stripCR (trimBom input)))).filter (fun c => c.any pred))

/-- `Display for Subtitles`: every member but the last followed by a blank
line, the last bare. -/
def Subtitles.render : List Subtitle → List Char
  | [] => []
  | [s] => s.render
  | s :: rest => s.render ++ '\n' :: '\n' :: Subtitles.render rest

/-- Join chunks with a separator (inverse view of `splitAllSub`). -/
def joinSep (sep : List Char) : List (List Char) → List Char
  | [] => []
  | [k] => k
  | k :: rest => k ++ sep ++ joinSep sep rest

/-! ### Inversion lemmas for substring splitting -/

theorem splitOnceSub_parts {sep : List Char} :
    ∀ {l a b : List Char}, splitOnceSub sep l = some (a, b) → l = a ++ sep ++ b := by
  intro l
  induction l with
  | nil => intro a b h; exact absurd h (by simp [splitOnceSub])
  | cons c rest ih =>
    intro a b h
    unfold splitOnceSub at h
    split at h
    next hp =>
      obtain ⟨rfl, rfl⟩ := Prod.mk.injEq .. ▸ Option.some.inj h
      rw [List.isPrefixOf_iff_prefix] at hp
      obtain ⟨t, ht⟩ := hp
      rw [List.nil_append, ← ht, List.drop_left]
    next hp =>
      rcases hrec : splitOnceSub sep rest with _ | ⟨a2, b2⟩
      · rw [hrec] at h; exact absurd h (by simp)
      · rw [hrec] at h
        obtain ⟨rfl, rfl⟩ := Prod.mk.injEq .. ▸ Option.some.inj h
        have := ih hrec
        simp [this]

theorem splitOnceSub_none_of_sep_inside {sep : List Char} (hne : sep ≠ []) :
    ∀ (x y : List Char), splitOnceSub sep (x ++ sep ++ y) = none → False := by
  intro x
  induction x with
  | nil =>
    intro y h
    rw [List.nil_append] at h
    rcases hsep : sep with _ | ⟨s0, srest⟩
    · exact hne hsep
    · rw [hsep, List.cons_append] at h
      unfold splitOnceSub at h
      rw [if_pos] at h
      · exact absurd h (by simp)
      · rw [List.isPrefixOf_iff_prefix]
        exact ⟨y, by simp⟩
  | cons c x2 ih =>
    intro y h
    rw [List.append_assoc, List.cons_append] at h
    unfold splitOnceSub at h
    split at h
    next => exact absurd h (by simp)
    next =>
      rcases hrec : splitOnceSub sep (x2 ++ (sep ++ y)) with _ | p
      · exact ih y (by rw [List.append_assoc]; exact hrec)
      · rw [hrec] at h; exact absurd h (by simp)

/-- A list with no occurrence of the separator splits as itself. -/
theorem splitOnceSub_none_iff {sep l : List Char} (hne : sep ≠ []) :
    splitOnceSub sep l = none ↔ ¬ ∃ x y, l = x ++ sep ++ y := by
  constructor
  · rintro h ⟨x, y, rfl⟩
    exact splitOnceSub_none_of_sep_inside hne x y h
  · intro h
    rcases hs : splitOnceSub sep l with _ | ⟨a, b⟩
    · rfl
    · exact absurd ⟨a, b, splitOnceSub_parts hs⟩ h

/-- No occurrence of the separator survives in any suffix. -/
theorem splitOnceSub_none_suffix {sep l t : List Char} (hne : sep ≠ [])
    (h : splitOnceSub sep l = none) (ht : t <:+ l) : splitOnceSub sep t = none := by
  rw [splitOnceSub_none_iff hne] at h ⊢
  rintro ⟨x, y, rfl⟩
  obtain ⟨p, rfl⟩ := ht
  exact h ⟨p ++ x, y, by simp⟩

theorem splitOnce_none_cons {sep : List Char} {c : Char} {rest : List Char}
    (h : splitOnceSub sep (c :: rest) = none) : splitOnceSub sep rest = none := by
  unfold splitOnceSub at h
  split at h
  next => exact absurd h (by simp)
  next =>
    rcases hr : splitOnceSub sep rest with _ | p
    · rfl
    · rw [hr] at h; exact absurd h (by simp)

/-- The piece before the first occurrence contains no occurrence itself. -/
theorem splitOnce_first_none {sep : List Char} : ∀ {l a b : List Char},
    splitOnceSub sep l = some (a, b) → splitOnceSub sep a = none := by
  intro l
  induction l with
  | nil => intro a b h; exact absurd h (by simp [splitOnceSub])
  | cons c rest ih =>
    intro a b h
    unfold splitOnceSub at h
    split at h
    next hp =>
      obtain ⟨rfl, rfl⟩ := Prod.mk.injEq .. ▸ Option.some.inj h
      rfl
    next hp =>
      rcases hrec : splitOnceSub sep rest with _ | ⟨a2, b2⟩
      · rw [hrec] at h; exact absurd h (by simp)
      · rw [hrec] at h
        obtain ⟨rfl, rfl⟩ := Prod.mk.injEq .. ▸ Option.some.inj h
        have ha2 := ih hrec
        unfold splitOnceSub
        rw [if_neg ?g, ha2]
        case g =>
          intro hpre
          apply hp
          rw [List.isPrefixOf_iff_prefix] at hpre ⊢
          have hparts := splitOnceSub_parts hrec
          have hx : c :: rest = (c :: a2) ++ (sep ++ b2) := by
            rw [hparts]; simp
          rw [hx]
          exact hpre.trans (List.prefix_append _ _)

/-- The piece before the first `"\n\n"` does not end with a line break. -/
theorem splitOnce_blank_getLast : ∀ {l a b : List Char},
    splitOnceSub blankSep l = some (a, b) → a.getLast? ≠ some '\n' := by
  intro l
  induction l with
  | nil => intro a b h; exact absurd h (by simp [splitOnceSub])
  | cons c rest ih =>
    intro a b h
    unfold splitOnceSub at h
    split at h
    next hp =>
      obtain ⟨rfl, rfl⟩ := Prod.mk.injEq .. ▸ Option.some.inj h
      simp
    next hp =>
      rcases hrec : splitOnceSub blankSep rest with _ | ⟨a2, b2⟩
      · rw [hrec] at h; exact absurd h (by simp)
      · rw [hrec] at h
        obtain ⟨rfl, rfl⟩ := Prod.mk.injEq .. ▸ Option.some.inj h
        rcases ha2 : a2 with _ | ⟨d, a3⟩
        · subst ha2
          have hparts := splitOnceSub_parts hrec
          rw [List.nil_append] at hparts
          simp only [List.getLast?_singleton, ne_eq, Option.some.injEq]
          intro hc
          subst hc
          apply hp
          rw [List.isPrefixOf_iff_prefix]
          refine ⟨'\n' :: b2, ?_⟩
          rw [hparts]
          rfl
        · subst ha2
          have := ih hrec
          rwa [List.getLast?_cons_cons]

/-- First occurrence of `"\n\n"` in `k ++ "\n\n" ++ J` is at the boundary,
provided `k` contains no occurrence and does not end with a line break. -/
theorem splitOnce_blank_boundary : ∀ {k : List Char} (J : List Char),
    splitOnceSub blankSep k = none → k.getLast? ≠ some '\n' →
    splitOnceSub blankSep (k ++ blankSep ++ J) = some (k, J) := by
  intro k
  induction k with
  | nil =>
    intro J _ _
    show splitOnceSub blankSep ('\n' :: '\n' :: J) = some ([], J)
    unfold splitOnceSub
    rw [if_pos]
    · rfl
    · rw [List.isPrefixOf_iff_prefix]
      exact ⟨J, rfl⟩
  | cons c k2 ih =>
    intro J hnone hlast
    rw [List.append_assoc, List.cons_append]
    unfold splitOnceSub
    rw [if_neg ?hguard]
    · have hk2 : splitOnceSub blankSep k2 = none := splitOnce_none_cons hnone
      have hl2 : k2.getLast? ≠ some '\n' := by
        rcases hk2e : k2 with _ | ⟨d, k3⟩
        · simp
        · rw [← hk2e]
          rw [hk2e] at hlast ⊢
          rwa [List.getLast?_cons_cons] at hlast
      have hrec := ih J hk2 hl2
      rw [List.append_assoc] at hrec
      rw [hrec]
    case hguard =>
      intro hpre
      rw [List.isPrefixOf_iff_prefix] at hpre
      obtain ⟨t, ht⟩ := hpre
      have hc : c = '\n' := by
        have := congrArg List.head? ht
        simpa [blankSep] using this.symm
      rcases hk2e : k2 with _ | ⟨d, k3⟩
      · subst hk2e
        subst hc
        simp at hlast
      · have hd : d = '\n' := by
          rw [hk2e] at ht
          have := congrArg (fun l => l.tail.head?) ht
          simpa [blankSep] using this.symm
        apply absurd hnone
        rw [hk2e, hc, hd]
        unfold splitOnceSub
        rw [if_pos]
        · simp
        · rw [List.isPrefixOf_iff_prefix]
          exact ⟨k3, rfl⟩

/-- Every chunk except the last ends in something other than a line break. -/
def TailOk : List (List Char) → Prop
  | [] => True
  | [_] => True
  | k :: rest => k.getLast? ≠ some '\n' ∧ TailOk rest

theorem tailOk_cons {k : List Char} {cs : List (List Char)}
    (hk : k.getLast? ≠ some '\n') (hcs : TailOk cs) : TailOk (k :: cs) := by
  rcases cs with _ | ⟨c2, cs2⟩
  · trivial
  · exact ⟨hk, hcs⟩

theorem tailOk_tail : ∀ {k : List Char} {cs : List (List Char)},
    TailOk (k :: cs) → TailOk cs := by
  intro k cs h
  rcases cs with _ | ⟨c2, cs2⟩
  · trivial
  · exact h.2

theorem joinSep_cons {sep k : List Char} {cs : List (List Char)} (h : cs ≠ []) :
    joinSep sep (k :: cs) = k ++ sep ++ joinSep sep cs := by
  rcases cs with _ | ⟨c2, cs2⟩
  · exact absurd rfl h
  · rfl

theorem mem_joinSep {sep : List Char} : ∀ {cs : List (List Char)} {k : List Char} {c : Char},
    k ∈ cs → c ∈ k → c ∈ joinSep sep cs := by
  intro cs
  induction cs with
  | nil => intro k c hk; exact absurd hk (by simp)
  | cons k2 cs2 ih =>
    intro k c hk hc
    rcases cs2 with _ | ⟨k3, cs3⟩
    · rcases List.mem_singleton.1 hk with rfl
      exact hc
    · rw [joinSep_cons (by simp)]
      rcases List.mem_cons.1 hk with rfl | hk
      · simp [List.mem_append, hc]
      · simp only [List.mem_append]
        exact Or.inr (ih hk hc)

/-- Full forward specification of the splitting pass. -/
theorem splitAllSub_spec : ∀ (fuel : Nat) (l : List Char), l.length ≤ fuel →
    joinSep blankSep (splitAllSub blankSep fuel l) = l ∧
    (∀ k ∈ splitAllSub blankSep fuel l, splitOnceSub blankSep k = none) ∧
    TailOk (splitAllSub blankSep fuel l) ∧ splitAllSub blankSep fuel l ≠ [] := by
  intro fuel
  induction fuel with
  | zero =>
    intro l hl
    obtain rfl : l = [] := List.length_eq_zero.1 (Nat.le_zero.1 hl)
    refine ⟨rfl, ?_, trivial, by simp [splitAllSub]⟩
    intro k hk
    simp only [splitAllSub, List.mem_singleton] at hk
    subst hk
    rfl
  | succ f ih =>
    intro l hl
    rcases hs : splitOnceSub blankSep l with _ | ⟨a, b⟩
    · unfold splitAllSub
      rw [hs]
      refine ⟨rfl, ?_, trivial, by simp⟩
      intro k hk
      simp only [List.mem_singleton] at hk
      subst hk
      exact hs
    · unfold splitAllSub
      rw [hs]
      have hparts := splitOnceSub_parts hs
      have hblen : b.length + 2 ≤ l.length := by
        rw [hparts]
        simp [blankSep]
      obtain ⟨j1, j2, j3, j4⟩ := ih b (by omega)
      have hfirstnone : splitOnceSub blankSep a = none := splitOnce_first_none hs
      have hfirstlast : a.getLast? ≠ some '\n' := splitOnce_blank_getLast hs
      refine ⟨?_, ?_, tailOk_cons hfirstlast j3, by simp⟩
      · rw [joinSep_cons j4, j1, ← hparts]
      · intro k hk
        rcases List.mem_cons.1 hk with rfl | hk
        · exact hfirstnone
        · exact j2 k hk

/-- Splitting is a left inverse of joining, given the chunk invariants. -/
theorem splitAll_of_joinSep : ∀ (cs : List (List Char)), cs ≠ [] →
    (∀ k ∈ cs, splitOnceSub blankSep k = none) → TailOk cs →
    ∀ fuel, (joinSep blankSep cs).length ≤ fuel →
    splitAllSub blankSep fuel (joinSep blankSep cs) = cs := by
  intro cs
  induction cs with
  | nil => intro h; exact absurd rfl h
  | cons k rest ih =>
    intro _ hnb hto fuel hfuel
    rcases rest with _ | ⟨k2, rest2⟩
    · show splitAllSub blankSep fuel k = [k]
      have hk := hnb k (by simp)
      rcases fuel with _ | f
      · rfl
      · unfold splitAllSub
        rw [hk]
    · rw [joinSep_cons (by simp)] at hfuel ⊢
      have hk := hnb k (by simp)
      have hbound := splitOnce_blank_boundary (joinSep blankSep (k2 :: rest2)) hk hto.1
      rcases fuel with _ | f
      · exfalso
        simp [blankSep] at hfuel
      · unfold splitAllSub
        rw [hbound]
        have hrec := ih (by simp) (fun x hx => hnb x (List.mem_cons_of_mem _ hx))
          (tailOk_tail hto) f (by simp [blankSep] at hfuel ⊢; omega)
        dsimp only
        rw [hrec]

theorem splitTerm_subset {sep l : List Char} :
    ∀ k ∈ splitTerm sep l, k ∈ splitAllSub sep l.length l := by
  intro k hk
  unfold splitTerm at hk
  split at hk
  next =>
    split at hk
    · exact (List.dropLast_sublist _).subset hk
    · exact hk
  next => exact hk

theorem tailOk_dropLast : ∀ {cs : List (List Char)}, TailOk cs → TailOk cs.dropLast := by
  intro cs
  induction cs with
  | nil => intro; trivial
  | cons k rest ih =>
    intro h
    rcases rest with _ | ⟨k2, rest2⟩
    · trivial
    · rw [List.dropLast_cons₂]
      exact tailOk_cons h.1 (ih h.2)

theorem tailOk_splitTerm {sep l : List Char}
    (h : TailOk (splitAllSub sep l.length l)) : TailOk (splitTerm sep l) := by
  unfold splitTerm
  split
  next =>
    split
    · exact tailOk_dropLast h
    · exact h
  next => exact h

theorem tailOk_filter (p : List Char → Bool) : ∀ {cs : List (List Char)},
    TailOk cs → TailOk (cs.filter p) := by
  intro cs
  induction cs with
  | nil => intro; trivial
  | cons k rest ih =>
    intro h
    rw [List.filter_cons]
    split
    · rcases rest with _ | ⟨k2, rest2⟩
      · exact trivial
      · exact tailOk_cons h.1 (ih h.2)
    · exact ih (tailOk_tail h)

/-! ### Inversion of character splitting and `Subtitle::parse` -/

theorem splitOnceChar_parts {sep : Char} : ∀ {l a b : List Char},
    splitOnceChar sep l = some (a, b) → l = a ++ sep :: b ∧ sep ∉ a := by
  intro l
  induction l with
  | nil => intro a b h; exact absurd h (by simp [splitOnceChar])
  | cons c rest ih =>
    intro a b h
    unfold splitOnceChar at h
    split at h
    next hc =>
      subst hc
      obtain ⟨rfl, rfl⟩ := Prod.mk.injEq .. ▸ Option.some.inj h
      exact ⟨rfl, by simp⟩
    next hc =>
      rcases hrec : splitOnceChar sep rest with _ | ⟨a2, b2⟩
      · rw [hrec] at h; exact absurd h (by simp)
      · rw [hrec] at h
        obtain ⟨rfl, rfl⟩ := Prod.mk.injEq .. ▸ Option.some.inj h
        obtain ⟨hp, hm⟩ := ih hrec
        refine ⟨by rw [List.cons_append, ← hp], ?_⟩
        intro hmem
        rcases List.mem_cons.1 hmem with rfl | hmem
        · exact hc rfl
        · exact hm hmem

theorem splitnChar_three_inv {sep : Char} {l a b c : List Char} {tail : List (List Char)}
    (h : splitnChar 3 sep l = a :: b :: c :: tail) :
    l = a ++ sep :: (b ++ sep :: c) ∧ sep ∉ a ∧ sep ∉ b ∧ tail = [] := by
  have h3 : splitnChar (1 + 2) sep l = a :: b :: c :: tail := h
  unfold splitnChar at h3
  rcases h1 : splitOnceChar sep l with _ | ⟨a1, b1⟩
  · rw [h1] at h3; exact absurd h3 (by simp)
  · rw [h1] at h3
    simp only [List.cons.injEq] at h3
    obtain ⟨rfl, h3⟩ := h3
    have h4 : splitnChar (0 + 2) sep b1 = b :: c :: tail := h3
    unfold splitnChar at h4
    rcases h2 : splitOnceChar sep b1 with _ | ⟨a2, b2⟩
    · rw [h2] at h4; exact absurd h4 (by simp)
    · rw [h2] at h4
      simp only [List.cons.injEq] at h4
      obtain ⟨rfl, h4⟩ := h4
      have h5 : splitnChar 1 sep b2 = [b2] := rfl
      rw [h5] at h4
      simp only [List.cons.injEq] at h4
      obtain ⟨rfl, rfl⟩ := h4
      obtain ⟨hp1, hm1⟩ := splitOnceChar_parts h1
      obtain ⟨hp2, hm2⟩ := splitOnceChar_parts h2
      exact ⟨by rw [hp1, hp2], hm1, hm2, rfl⟩

/-- The `u8`/`u8`/`u8`/`u16` storage widths of a parsed timestamp. -/
def TsWidths (t : Timestamp) : Prop :=
  t.hours ≤ 255 ∧ t.minutes ≤ 255 ∧ t.seconds ≤ 255 ∧ t.milliseconds ≤ 65535

instance (t : Timestamp) : Decidable (TsWidths t) := by unfold TsWidths; infer_instance

theorem timestamp_parse_bounds : ∀ {l : List Char} {t : Timestamp},
    Timestamp.parse l = .ok t → TsWidths t := by
  intro l t h
  unfold Timestamp.parse at h
  split at h
  next => exact absurd h (by simp)
  next hoursF rest hsp =>
    split at h
    next => exact absurd h (by simp)
    next hours hh =>
      split at h
      next => exact absurd h (by simp)
      next minutesF rest2 =>
        split at h
        next => exact absurd h (by simp)
        next minutes hm =>
          split at h
          next => exact absurd h (by simp)
          next thirdF tail =>
            split at h
            next => exact absurd h (by simp)
            next secondsF srest hsp2 =>
              split at h
              next => exact absurd h (by simp)
              next seconds hs =>
                split at h
                next => exact absurd h (by simp)
                next msF tail2 =>
                  split at h
                  next => exact absurd h (by simp)
                  next ms hms =>
                    obtain rfl : Timestamp.new hours minutes seconds ms = t :=
                      PResult.ok.inj h
                    exact ⟨parseUInt_le hh, parseUInt_le hm, parseUInt_le hs,
                      parseUInt_le hms⟩

/-- Invariants a subtitle obtained from a successful chunk parse satisfies. -/
def GoodSub (s : Subtitle) : Prop :=
  s.num ≤ usizeMax ∧ TsWidths s.start_time ∧ TsWidths s.end_time ∧
  splitOnceSub blankSep s.text = none ∧ s.text.head? ≠ some '\n' ∧
  ∀ c ∈ s.text, ¬ c = '\r'

theorem subtitle_parse_inv {k : List Char} {s : Subtitle} (h : Subtitle.parse k = .ok s) :
    s.num ≤ usizeMax ∧ TsWidths s.start_time ∧ TsWidths s.end_time ∧
    ∃ numF timeF, trimNewlines k = numF ++ '\n' :: (timeF ++ '\n' :: s.text) := by
  unfold Subtitle.parse at h
  split at h
  next => exact absurd h (by simp)
  next numF rest hsp =>
    split at h
    next => exact absurd h (by simp)
    next num hnum =>
      split at h
      next => exact absurd h (by simp)
      next timeF rest2 =>
        split at h
        next => exact absurd h (by simp)
        next t1 ht1 =>
          split at h
          next => exact absurd h (by simp)
          next endF hend =>
            split at h
            next => exact absurd h (by simp)
            next t2 ht2 =>
              split at h
              next => exact absurd h (by simp)
              next textF tail2 =>
                obtain rfl : Subtitle.new num t1 t2 textF = s := PResult.ok.inj h
                obtain ⟨hdec, hm1, hm2, htail⟩ := splitnChar_three_inv hsp
                exact ⟨parseUInt_le hnum, timestamp_parse_bounds ht1,
                  timestamp_parse_bounds ht2, numF, timeF, hdec⟩

theorem blankSep_ne_nil : blankSep ≠ [] := by simp [blankSep]

theorem goodsub_of_parse {k : List Char} {s : Subtitle}
    (hparse : Subtitle.parse k = .ok s)
    (hnb : splitOnceSub blankSep k = none)
    (hcr : ∀ c ∈ k, ¬ c = '\r') : GoodSub s := by
  obtain ⟨h1, h2, h3, numF, timeF, hdec⟩ := subtitle_parse_inv hparse
  have htrim : trimNewlines k <:+ k := List.dropWhile_suffix _
  have htext : s.text <:+ trimNewlines k := by
    refine ⟨numF ++ '\n' :: timeF ++ ['\n'], ?_⟩
    rw [hdec]
    simp
  have htextk : s.text <:+ k := htext.trans htrim
  refine ⟨h1, h2, h3, ?_, ?_, ?_⟩
  · exact splitOnceSub_none_suffix blankSep_ne_nil
      (splitOnceSub_none_suffix blankSep_ne_nil hnb htrim) htext
  · intro hhead
    rcases htt : s.text with _ | ⟨c0, t2⟩
    · rw [htt] at hhead; simp at hhead
    · rw [htt] at hhead
      simp only [List.head?_cons, Option.some.injEq] at hhead
      subst hhead
      have hnbtrim : splitOnceSub blankSep (trimNewlines k) = none :=
        splitOnceSub_none_suffix blankSep_ne_nil hnb htrim
      apply splitOnceSub_none_of_sep_inside blankSep_ne_nil
        (numF ++ '\n' :: timeF) t2
      rw [← hnbtrim]
      congr 1
      rw [hdec, htt]
      simp [blankSep]
  · intro c hc
    exact hcr c (htextk.sublist.subset hc)

theorem strictsub_of_parse {k : List Char} {s : Subtitle}
    (hparse : Subtitle.parse k = .ok s) (hlast : k.getLast? ≠ some '\n') :
    s.text ≠ [] ∧ s.text.getLast? ≠ some '\n' := by
  obtain ⟨-, -, -, numF, timeF, hdec⟩ := subtitle_parse_inv hparse
  have htrim : trimNewlines k <:+ k := List.dropWhile_suffix _
  obtain ⟨p, hp⟩ := htrim
  have hlast2 : (trimNewlines k).getLast? ≠ some '\n' := by
    intro hgl
    apply hlast
    rw [← hp, List.getLast?_append, hgl]
    rfl
  rw [hdec] at hlast2
  rcases htt : s.text with _ | ⟨c0, t2⟩
  · rw [htt] at hlast2
    exfalso
    apply hlast2
    rw [show numF ++ '\n' :: (timeF ++ ['\n']) = (numF ++ '\n' :: timeF) ++ ['\n'] by simp,
      List.getLast?_append]
    rfl
  · refine ⟨by simp [htt], ?_⟩
    intro hgl
    apply hlast2
    rw [htt]
    have hx : (numF ++ '\n' :: (timeF ++ '\n' :: c0 :: t2)).getLast? = (c0 :: t2).getLast? := by
      rw [show numF ++ '\n' :: (timeF ++ '\n' :: c0 :: t2)
          = (numF ++ '\n' :: timeF ++ ['\n']) ++ (c0 :: t2) by simp,
        List.getLast?_append, Option.or_of_isSome (List.getLast?_isSome.2 (by simp))]
    rw [hx, hgl]

/-! ### Invariants of a rendered subtitle -/

theorem mem_subtitle_render {s : Subtitle} {c : Char} (h : c ∈ s.render) :
    c ∈ natDec s.num ∨ c = '\n' ∨ c ∈ Timestamp.render s.start_time ∨
    c ∈ arrowSep ∨ c ∈ Timestamp.render s.end_time ∨ c ∈ s.text := by
  unfold Subtitle.render at h
  simp only [List.mem_append, List.mem_cons] at h
  tauto

theorem subtitle_render_no_cr {s : Subtitle} (hcr : ∀ c ∈ s.text, ¬ c = '\r') :
    ∀ c ∈ s.render, ¬ c = '\r' := by
  intro c hc heq
  subst heq
  rcases mem_subtitle_render hc with h | h | h | h | h | h
  · have := natDec_digit _ h
    revert this
    decide
  · exact absurd h (by decide)
  · have := mem_timestamp_render h
    revert this
    decide
  · exact absurd h (by decide)
  · have := mem_timestamp_render h
    revert this
    decide
  · exact hcr _ h rfl

theorem subtitle_render_head (s : Subtitle) :
    ∃ c cs, s.render = c :: cs ∧ 48 ≤ c.toNat ∧ c.toNat ≤ 57 := by
  rcases hnd : natDec s.num with _ | ⟨c, cs0⟩
  · exact absurd hnd (natDec_ne_nil _)
  · have hcd := natDec_digit (n := s.num) c (by rw [hnd]; simp)
    refine ⟨c, cs0 ++ '\n' :: (Timestamp.render s.start_time ++ arrowSep ++
      (Timestamp.render s.end_time ++ '\n' :: s.text)), ?_, hcd.1, hcd.2⟩
    unfold Subtitle.render
    rw [hnd]
    rfl

theorem infixBlank_has_newline {l : List Char} (h : ∃ x y, l = x ++ blankSep ++ y) :
    '\n' ∈ l := by
  obtain ⟨x, y, rfl⟩ := h
  simp [blankSep]

theorem infixBlank_length {l : List Char} (h : ∃ x y, l = x ++ blankSep ++ y) :
    2 ≤ l.length := by
  obtain ⟨x, y, rfl⟩ := h
  simp [blankSep]
  omega

/-- A `"\n\n"` occurrence in an append is inside a part or spans the seam. -/
theorem blank_infix_append : ∀ {p q : List Char},
    (∃ x y, p ++ q = x ++ blankSep ++ y) →
    (∃ x y, p = x ++ blankSep ++ y) ∨ (∃ x y, q = x ++ blankSep ++ y) ∨
    (p.getLast? = some '\n' ∧ q.head? = some '\n') := by
  intro p
  induction p with
  | nil =>
    intro q h
    rw [List.nil_append] at h
    exact Or.inr (Or.inl h)
  | cons c p2 ih =>
    intro q h
    obtain ⟨x, y, hxy⟩ := h
    rcases x with _ | ⟨e, x2⟩
    · rw [List.nil_append] at hxy
      simp only [blankSep, List.cons_append, List.cons.injEq] at hxy
      obtain ⟨rfl, hxy⟩ := hxy
      rcases p2 with _ | ⟨d, p3⟩
      · rw [List.nil_append] at hxy
        exact Or.inr (Or.inr ⟨by simp, by rw [hxy]; rfl⟩)
      · rw [List.cons_append, List.cons.injEq] at hxy
        obtain ⟨rfl, hxy⟩ := hxy
        exact Or.inl ⟨[], p3, by simp [blankSep]⟩
    · rw [List.cons_append] at hxy
      rw [show (e :: x2) ++ blankSep ++ y = e :: (x2 ++ blankSep ++ y) by simp] at hxy
      rw [List.cons.injEq] at hxy
      obtain ⟨rfl, hxy⟩ := hxy
      rcases ih ⟨x2, y, hxy⟩ with h2 | h2 | ⟨h2a, h2b⟩
      · obtain ⟨x3, y3, hp2⟩ := h2
        exact Or.inl ⟨c :: x3, y3, by rw [hp2]; simp⟩
      · exact Or.inr (Or.inl h2)
      · rcases p2 with _ | ⟨d, p3⟩
        · simp at h2a
        · exact Or.inr (Or.inr ⟨by rwa [List.getLast?_cons_cons], h2b⟩)

theorem timestamp_render_head (t : Timestamp) :
    ∃ c cs, t.render = c :: cs ∧ 44 ≤ c.toNat ∧ c.toNat ≤ 58 := by
  rcases hr : t.render with _ | ⟨c, cs⟩
  · exfalso
    have : (t.render).length = 0 := by rw [hr]; rfl
    unfold Timestamp.render at this
    simp at this
  · have := mem_timestamp_render (t := t) (c := c) (by rw [hr]; simp)
    exact ⟨c, cs, rfl, this.1, this.2⟩

theorem no_newline_no_infix {l : List Char} (h : '\n' ∉ l) :
    ¬ ∃ x y, l = x ++ blankSep ++ y :=
  fun hi => h (infixBlank_has_newline hi)

theorem subtitle_render_noBlank {s : Subtitle}
    (htext : splitOnceSub blankSep s.text = none) (hhead : s.text.head? ≠ some '\n') :
    splitOnceSub blankSep s.render = none := by
  rw [splitOnceSub_none_iff blankSep_ne_nil]
  intro hinf
  unfold Subtitle.render at hinf
  rcases blank_infix_append hinf with h | h | ⟨ha, hb⟩
  · exact no_newline_no_infix newline_not_mem_natDec h
  · rcases blank_infix_append (p := ['\n']) h with h2 | h2 | ⟨h2a, h2b⟩
    · have := infixBlank_length h2
      simp at this
    · rcases blank_infix_append h2 with h3 | h3 | ⟨h3a, h3b⟩
      · apply no_newline_no_infix (l := Timestamp.render s.start_time ++ arrowSep) ?_ h3
        intro hm
        rcases List.mem_append.1 hm with hm | hm
        · exact newline_not_mem_render hm
        · revert hm; decide
      · rcases blank_infix_append h3 with h4 | h4 | ⟨h4a, h4b⟩
        · exact no_newline_no_infix newline_not_mem_render h4
        · rcases blank_infix_append (p := ['\n']) h4 with h5 | h5 | ⟨h5a, h5b⟩
          · have := infixBlank_length h5
            simp at this
          · exact (splitOnceSub_none_iff blankSep_ne_nil).1 htext h5
          · exact hhead h5b
        · rcases hre : Timestamp.render s.end_time with _ | ⟨c, cs⟩
          · rw [hre] at h4a
            simp at h4a
          · rw [hre] at h4a
            exact newline_not_mem_render (t := s.end_time)
              (by rw [hre]; exact List.mem_of_mem_getLast? h4a)
      · have harr : (Timestamp.render s.start_time ++ arrowSep).getLast? = some ' ' := by
          rw [List.getLast?_append]
          rfl
        rw [harr] at h3a
        exact absurd h3a (by decide)
    · obtain ⟨c, cs, hr1, hd1, hd2⟩ := timestamp_render_head s.start_time
      simp only [List.append_eq] at h2b
      rw [show Timestamp.render s.start_time ++ arrowSep
          ++ (Timestamp.render s.end_time ++ '\n' :: s.text)
          = Timestamp.render s.start_time ++ (arrowSep
            ++ (Timestamp.render s.end_time ++ '\n' :: s.text)) by simp, hr1] at h2b
      simp only [List.cons_append, List.head?_cons, Option.some.injEq] at h2b
      subst h2b
      revert hd1 hd2
      decide
  · have := List.mem_of_mem_getLast? ha
    exact newline_not_mem_natDec this

theorem subtitle_render_getLast {s : Subtitle} (hne : s.text ≠ [])
    (hlast : s.text.getLast? ≠ some '\n') : s.render.getLast? ≠ some '\n' := by
  have hsh : Subtitle.render s
      = (natDec s.num ++ '\n' :: (Timestamp.render s.start_time ++ arrowSep
          ++ Timestamp.render s.end_time ++ ['\n'])) ++ s.text := by
    unfold Subtitle.render
    simp
  rw [hsh, List.getLast?_append, Option.or_of_isSome (List.getLast?_isSome.2 hne)]
  exact hlast

/-- Re-parsing a rendered subtitle recovers it (needs only the storage-width
facts; the text is arbitrary). -/
theorem subtitle_render_parse {s : Subtitle} (hn : s.num ≤ usizeMax)
    (h1 : TsWidths s.start_time) (h2 : TsWidths s.end_time) :
    Subtitle.parse s.render = .ok s := by
  have hsh : Subtitle.render s = natDec s.num ++ '\n' ::
      ((Timestamp.render s.start_time ++ arrowSep ++ Timestamp.render s.end_time)
        ++ '\n' :: s.text) := by
    unfold Subtitle.render
    simp
  rw [hsh]
  unfold Subtitle.parse
  rw [trimNewlines_of_digit_head (natDec_ne_nil _) (fun c hc => natDec_digit c hc),
    splitnChar_three newline_not_mem_natDec newline_not_mem_timeline]
  dsimp only
  rw [parseUInt_natDec hn]
  dsimp only
  rw [iterFirst_arrow_join space_not_mem_render,
    timestamp_parse_render h1.1 h1.2.1 h1.2.2.1 h1.2.2.2]
  dsimp only
  rw [iterSecond_arrow_join space_not_mem_render space_not_mem_render]
  dsimp only
  rw [firstSpaceToken_of_no_space space_not_mem_render,
    timestamp_parse_render h2.1 h2.2.1 h2.2.2.1 h2.2.2.2]
  rfl

/-- Every subtitle except the last has non-empty text not ending in `'\n'`. -/
def SubsTailOk : List Subtitle → Prop
  | [] => True
  | [_] => True
  | s :: rest => (s.text ≠ [] ∧ s.text.getLast? ≠ some '\n') ∧ SubsTailOk rest

theorem subsTailOk_cons {s : Subtitle} {rest : List Subtitle}
    (hs : s.text ≠ [] ∧ s.text.getLast? ≠ some '\n') (hr : SubsTailOk rest) :
    SubsTailOk (s :: rest) := by
  rcases rest with _ | ⟨s2, rest2⟩
  · trivial
  · exact ⟨hs, hr⟩

theorem parseChunks_good : ∀ {ks : List (List Char)} {subs : List Subtitle},
    (∀ k ∈ ks, splitOnceSub blankSep k = none ∧ ∀ c ∈ k, ¬ c = '\r') →
    TailOk ks → parseChunks ks = .ok subs →
    (∀ s ∈ subs, GoodSub s) ∧ SubsTailOk subs := by
  intro ks
  induction ks with
  | nil =>
    intro subs _ _ h
    obtain rfl : ([] : List Subtitle) = subs := PResult.ok.inj h
    exact ⟨by simp, trivial⟩
  | cons k rest ih =>
    intro subs hprops hto h
    unfold parseChunks at h
    split at h
    next => exact absurd h (by simp)
    next s hs =>
      split at h
      next => exact absurd h (by simp)
      next ss hss =>
        obtain rfl : s :: ss = subs := PResult.ok.inj h
        obtain ⟨hgood, htail⟩ := ih (fun x hx => hprops x (List.mem_cons_of_mem _ hx))
          (tailOk_tail hto) hss
        have hk := hprops k (by simp)
        have hgs : GoodSub s := goodsub_of_parse hs hk.1 hk.2
        refine ⟨?_, ?_⟩
        · intro x hx
          rcases List.mem_cons.1 hx with rfl | hx
          · exact hgs
          · exact hgood x hx
        · rcases ss with _ | ⟨s2, ss2⟩
          · trivial
          · rcases rest with _ | ⟨k2, rest2⟩
            · exact absurd hss.symm (by simp [parseChunks])
            · exact ⟨strictsub_of_parse hs hto.1, htail⟩

theorem parseChunks_render : ∀ {subs : List Subtitle}, (∀ s ∈ subs, GoodSub s) →
    parseChunks (subs.map Subtitle.render) = .ok subs := by
  intro subs
  induction subs with
  | nil => intro; rfl
  | cons s rest ih =>
    intro hgood
    have hg := hgood s (by simp)
    show parseChunks (Subtitle.render s :: rest.map Subtitle.render) = _
    unfold parseChunks
    rw [subtitle_render_parse hg.1 hg.2.1 hg.2.2.1]
    dsimp only
    rw [ih (fun x hx => hgood x (List.mem_cons_of_mem _ hx))]

theorem subtitles_render_eq_joinSep : ∀ subs : List Subtitle,
    Subtitles.render subs = joinSep blankSep (subs.map Subtitle.render) := by
  intro subs
  induction subs with
  | nil => rfl
  | cons s rest ih =>
    rcases rest with _ | ⟨s2, rest2⟩
    · rfl
    · show Subtitle.render s ++ '\n' :: '\n' :: Subtitles.render (s2 :: rest2) = _
      rw [List.map_cons, joinSep_cons (by simp), ih]
      simp [blankSep]

theorem tailOk_map_render : ∀ {subs : List Subtitle}, SubsTailOk subs →
    TailOk (subs.map Subtitle.render) := by
  intro subs
  induction subs with
  | nil => intro; trivial
  | cons s rest ih =>
    intro h
    rcases rest with _ | ⟨s2, rest2⟩
    · trivial
    · exact tailOk_cons (subtitle_render_getLast h.1.1 h.1.2) (ih h.2)

theorem mem_of_mem_joinSep {sep : List Char} : ∀ {cs : List (List Char)} {c : Char},
    c ∈ joinSep sep cs → (∃ k ∈ cs, c ∈ k) ∨ c ∈ sep := by
  intro cs
  induction cs with
  | nil => intro c h; simp [joinSep] at h
  | cons k rest ih =>
    intro c h
    rcases rest with _ | ⟨k2, rest2⟩
    · exact Or.inl ⟨k, by simp, h⟩
    · rw [joinSep_cons (by simp)] at h
      rcases List.mem_append.1 h with h | h
      · rcases List.mem_append.1 h with h | h
        · exact Or.inl ⟨k, by simp, h⟩
        · exact Or.inr h
      · rcases ih h with ⟨k3, hk3, hc3⟩ | h
        · exact Or.inl ⟨k3, List.mem_cons_of_mem _ hk3, hc3⟩
        · exact Or.inr h

theorem stripCR_eq_self {l : List Char} (h : ∀ c ∈ l, ¬ c = '\r') : stripCR l = l := by
  unfold stripCR
  apply List.filter_eq_self.2
  intro a ha
  exact decide_eq_true (h a ha)

theorem not_cr_mem_stripCR {l : List Char} : ∀ c ∈ stripCR l, ¬ c = '\r' := by
  intro c hc
  unfold stripCR at hc
  have := List.of_mem_filter hc
  simpa using this

theorem trimBom_of_cons {c : Char} {rest : List Char} (h : ¬ c = '﻿') :
    trimBom (c :: rest) = c :: rest := by
  unfold trimBom
  rw [List.dropWhile_cons, if_neg]
  simp only [decide_eq_true_eq]
  exact h

theorem splitTerm_of_join {cs : List (List Char)} (hne : cs ≠ [])
    (hnb : ∀ k ∈ cs, splitOnceSub blankSep k = none) (hto : TailOk cs)
    (hkne : ∀ k ∈ cs, k ≠ []) :
    splitTerm blankSep (joinSep blankSep cs) = cs := by
  unfold splitTerm
  rw [splitAll_of_joinSep cs hne hnb hto _ le_rfl]
  rcases hgl : cs.getLast? with _ | k
  · rfl
  · dsimp only
    rw [if_neg]
    have hkne2 := hkne k (List.mem_of_mem_getLast? hgl)
    rcases k with _ | _
    · exact absurd rfl hkne2
    · simp

theorem subtitles_reparse (pred : Char → Bool)
    (hpred : ∀ c : Char, 48 ≤ c.toNat → c.toNat ≤ 57 → pred c = true)
    (subs : List Subtitle) (hgood : ∀ s ∈ subs, GoodSub s)
    (hstail : SubsTailOk subs) :
    Subtitles.parse_from_str pred (Subtitles.render subs) = .ok subs := by
  rcases subs with _ | ⟨s0, rest⟩
  · rfl
  · have hmapne : (s0 :: rest).map Subtitle.render ≠ [] := by simp
    have hnbren : ∀ k ∈ (s0 :: rest).map Subtitle.render,
        splitOnceSub blankSep k = none := by
      intro k hk
      obtain ⟨s, hs, rfl⟩ := List.mem_map.1 hk
      have hg := hgood s hs
      exact subtitle_render_noBlank hg.2.2.2.1 hg.2.2.2.2.1
    have htoren : TailOk ((s0 :: rest).map Subtitle.render) := tailOk_map_render hstail
    have hknee : ∀ k ∈ (s0 :: rest).map Subtitle.render, k ≠ [] := by
      intro k hk
      obtain ⟨s, hs, rfl⟩ := List.mem_map.1 hk
      obtain ⟨c, cs, hr, -, -⟩ := subtitle_render_head s
      rw [hr]
      simp
    have hnocr : ∀ c ∈ Subtitles.render (s0 :: rest), ¬ c = '\r' := by
      intro c hc heq
      rw [subtitles_render_eq_joinSep] at hc
      rcases mem_of_mem_joinSep hc with ⟨k, hk, hck⟩ | hcsep
      · obtain ⟨s, hs, rfl⟩ := List.mem_map.1 hk
        exact subtitle_render_no_cr (hgood s hs).2.2.2.2.2 c hck heq
      · subst heq
        revert hcsep
        decide
    obtain ⟨c0, cs0, hh0, hd0a, hd0b⟩ := subtitle_render_head s0
    obtain ⟨X, hX⟩ : ∃ X, Subtitles.render (s0 :: rest) = Subtitle.render s0 ++ X := by
      rcases rest with _ | ⟨s1, rest1⟩
      · exact ⟨[], by simp [Subtitles.render]⟩
      · exact ⟨'\n' :: '\n' :: Subtitles.render (s1 :: rest1), rfl⟩
    unfold Subtitles.parse_from_str
    rw [hX, hh0, List.cons_append,
      trimBom_of_cons (by intro he; rw [he] at hd0b; revert hd0b; decide),
      ← List.cons_append, ← hh0, ← hX, stripCR_eq_self hnocr,
      subtitles_render_eq_joinSep,
      splitTerm_of_join hmapne hnbren htoren hknee]
    have hfil : ((s0 :: rest).map Subtitle.render).filter (fun c => c.any pred)
        = (s0 :: rest).map Subtitle.render := by
      apply List.filter_eq_self.2
      intro k hk
      obtain ⟨s, hs, rfl⟩ := List.mem_map.1 hk
      obtain ⟨c, cs, hr, hda, hdb⟩ := subtitle_render_head s
      rw [hr]
      simp only [List.any_cons, Bool.or_eq_true]
      exact Or.inl (hpred c hda hdb)
    rw [hfil]
    exact parseChunks_render hgood

/-- C9: a collection obtained from any successful `parse_from_str` renders
(members joined by a blank line, no leading or trailing separator, the empty
collection as the empty string) to text that parses back to an equal
collection.  The chunk filter is any predicate accepting the decimal digits,
as Rust's `char::is_alphanumeric` does. -/
theorem subtitles_roundtrip (pred : Char → Bool)
    (hpred : ∀ c : Char, 48 ≤ c.toNat → c.toNat ≤ 57 → pred c = true)
    (input : List Char) (subs : List Subtitle)
    (h : Subtitles.parse_from_str pred input = .ok subs) :
    Subtitles.parse_from_str pred (Subtitles.render subs) = .ok subs := by
  unfold Subtitles.parse_from_str at h
  obtain ⟨j1, j2, j3, j4⟩ := splitAllSub_spec (stripCR (trimBom input)).length
    (stripCR (trimBom input)) le_rfl
  have hchunks : ∀ k ∈ (splitTerm blankSep (stripCR (trimBom input))).filter
      (fun c => c.any pred), splitOnceSub blankSep k = none ∧ ∀ c ∈ k, ¬ c = '\r' := by
    intro k hk
    have hk2 := splitTerm_subset k (List.mem_filter.1 hk).1
    refine ⟨j2 k hk2, ?_⟩
    intro c hcmem
    have hcin : c ∈ stripCR (trimBom input) := by
      rw [← j1]
      exact mem_joinSep hk2 hcmem
    exact not_cr_mem_stripCR c hcin
  have hto : TailOk ((splitTerm blankSep (stripCR (trimBom input))).filter
      (fun c => c.any pred)) := tailOk_filter _ (tailOk_splitTerm j3)
  obtain ⟨hgood, hstail⟩ := parseChunks_good hchunks hto h
  exact subtitles_reparse pred hpred subs hgood hstail

theorem subtitles_roundtrip_witness :
    Subtitles.parse_from_str (fun _ => true)
        (Subtitles.render
          [Subtitle.new 1 (Timestamp.new 0 0 0 0) (Timestamp.new 0 0 1 0) ['h', 'i']]) =
      .ok [Subtitle.new 1 (Timestamp.new 0 0 0 0) (Timestamp.new 0 0 1 0) ['h', 'i']] :=
  subtitles_roundtrip (fun _ => true) (fun _ _ _ => rfl)
    "1\n00:00:00,000 --> 00:00:01,000\nhi".toList
    [Subtitle.new 1 (Timestamp.new 0 0 0 0) (Timestamp.new 0 0 1 0) ['h', 'i']]
    (by decide)
